import Mathlib

/-!
Verification development for the sorbet fragments: the DSL flatten pass
(`src/dsl/flatten.cc`), the LSP edit committer and fast-path decision
(`src/main/lsp/request_dispatch.cc`), and the Flatfiles rewriter
(`src/rewriter/Flatfiles.cc`).

Source locations (`core::Loc`) are elided throughout: no modelled code
branches on them, and no claim mentions them.
-/

namespace Sorbet

/-! ### AST data model (ast/ast.h, as used by the fragments)

The expression kinds the fragments touch.  `Literal` carries only what
`Flatfiles.cc` inspects: whether it is a symbol literal and, if so, the
symbol's name (`some s`), otherwise `none`.  A `Send`'s block argument is
elided: none of the modelled code inspects it.
-/

inductive ClassDefKind where
  | Module
  | Class
deriving DecidableEq, Repr

inductive UIdentKind where
  | Local
  | Instance
  | Class
  | Global
deriving DecidableEq, Repr

/-! Interned method names from `core::Names` used by the fragments. -/

namespace Names

def private_ : String := "private"

def protected_ : String := "protected"

def public_ : String := "public"

def privateClassMethod : String := "private_class_method"

def sig : String := "sig"

def singleton : String := "<<singleton>>"

def declareFlatfile : String := "flatfile!"

def from_ : String := "from"

def field : String := "field"

def pattern : String := "pattern"

def arg0 : String := "arg0"

def self_ : String := "self"

def untyped : String := "untyped"

end Names

inductive Expression where
  | EmptyTree : Expression
  | ClassDef (kind : ClassDefKind) (name : Expression) (ancestors : List Expression)
      (rhs : List Expression) : Expression
  | MethodDef (name : String) (isSelf : Bool) (args : List Expression)
      (rhs : Expression) : Expression
  | Send (recv : Expression) (fn : String) (args : List Expression) : Expression
  | Literal (sym : Option String) : Expression
  | Local (name : String) : Expression
  | UnresolvedIdent (kind : UIdentKind) (name : String) : Expression
  | InsSeq (stats : List Expression) (result : Expression) : Expression
deriving Repr

mutual

/-- Structural (boolean) equality of expressions. -/
def Expression.beq : Expression → Expression → Bool
  | .EmptyTree, .EmptyTree => true
  | .ClassDef k1 n1 a1 r1, .ClassDef k2 n2 a2 r2 =>
      k1 == k2 && Expression.beq n1 n2 && Expression.beqList a1 a2 && Expression.beqList r1 r2
  | .MethodDef n1 s1 a1 b1, .MethodDef n2 s2 a2 b2 =>
      n1 == n2 && s1 == s2 && Expression.beqList a1 a2 && Expression.beq b1 b2
  | .Send r1 f1 a1, .Send r2 f2 a2 =>
      Expression.beq r1 r2 && f1 == f2 && Expression.beqList a1 a2
  | .Literal s1, .Literal s2 => s1 == s2
  | .Local n1, .Local n2 => n1 == n2
  | .UnresolvedIdent k1 n1, .UnresolvedIdent k2 n2 => k1 == k2 && n1 == n2
  | .InsSeq s1 e1, .InsSeq s2 e2 => Expression.beqList s1 s2 && Expression.beq e1 e2
  | _, _ => false

/-- Structural (boolean) equality of expression lists. -/
def Expression.beqList : List Expression → List Expression → Bool
  | [], [] => true
  | x :: xs, y :: ys => Expression.beq x y && Expression.beqList xs ys
  | _, _ => false

end

theorem Expression.beq_iff :
    (∀ a b : Expression, Expression.beq a b = true ↔ a = b) ∧
    (∀ l1 l2 : List Expression, Expression.beqList l1 l2 = true ↔ l1 = l2) := by
  apply Expression.beq.mutual_induct
      (motive_1 := fun a b => Expression.beq a b = true ↔ a = b)
      (motive_2 := fun l1 l2 => Expression.beqList l1 l2 = true ↔ l1 = l2) <;>
    try (intros; simp_all [Expression.beq, Expression.beqList, and_assoc])
  case _ t x h1 h2 h3 h4 h5 h6 h7 h8 =>
    intro heq
    subst heq
    cases t with
    | EmptyTree => exact h1 rfl rfl
    | ClassDef k n a r => exact h2 k n a r k n a r rfl rfl
    | MethodDef n s a b =>
        cases s with
        | false => exact ((h3 n).1 a b n).1 a b rfl rfl
        | true => exact ((h3 n).2 a b n).2 a b rfl rfl
    | Send r f a => exact h4 r f a r f a rfl rfl
    | Literal s => exact h5 s s rfl rfl
    | Local n => exact h6 n n rfl rfl
    | UnresolvedIdent k n => exact h7 k n k n rfl rfl
    | InsSeq s e => exact h8 s e s e rfl rfl
  case _ t x h1 h2 =>
    intro heq
    subst heq
    cases t with
    | nil => exact h1 rfl rfl
    | cons hd tl => exact h2 hd tl hd tl rfl rfl

instance : DecidableEq Expression := fun a b =>
  decidable_of_iff (Expression.beq a b = true) (Expression.beq_iff.1 a b)

/-! ### LSP incremental-typecheck coordinator (src/main/lsp/request_dispatch.cc)

The snapshot (`core::GlobalState`'s file table) is modelled as the list of
file paths in `FileId` order (`FileId` = list index); its per-file hashes
(`LSPLoop::globalStateHashes`) as a parallel list of `FileHash`.  `FileHash`
keeps only the `definitions.hierarchyHash` component: it is the only part
the modelled code reads.  The sentinel values `HASH_STATE_NOT_COMPUTED` and
`HASH_STATE_INVALID` live in `core/` (not under src/); modelled from the
spec: two distinct reserved values, compared only for (dis)equality.
-/

structure FileHash where
  hierarchyHash : Nat
deriving DecidableEq, Repr

def HASH_STATE_NOT_COMPUTED : Nat := 0

def HASH_STATE_INVALID : Nat := 1

/-- A `core::File`: its path and source text. -/
structure SrcFile where
  path : String
  source : String
deriving DecidableEq, Repr

/-- An `ast::ParsedFile`: the indexed (parsed + desugared) tree and its file id. -/
structure ParsedFile where
  tree : Expression
  file : Nat
deriving DecidableEq, Repr

/-- Deep copy of an AST (`Expression::deepCopy`): in this pure model it yields
the structurally equal tree itself. -/
def deepCopy (tree : Expression) : Expression := tree

/-- An evicted-hash map (`UnorderedMap<int, core::FileHash>`), as an
association list from `FileId` to `FileHash`; lookup takes the first match. -/
abbrev Evictions := List (Nat × FileHash)

/-- The `LSPFileUpdates` record. `updatedGS` (the deep-copied snapshot for a
slow path) is elided: none of the modelled decisions read it. -/
structure LSPFileUpdates where
  epoch : Nat
  editCount : Nat
  hasNewFiles : Bool
  updatedFiles : List SrcFile
  updatedFileHashes : List FileHash
  updatedFileIndexes : List ParsedFile
  canTakeFastPath : Bool
deriving DecidableEq, Repr

/-- The parallel-arrays invariant of `LSPFileUpdates` (spec §3). -/
def LSPFileUpdates.parallelArrays (u : LSPFileUpdates) : Prop :=
  u.updatedFiles.length = u.updatedFileHashes.length ∧
  u.updatedFiles.length = u.updatedFileIndexes.length

/-- Look up a path in the snapshot (`GlobalState::findFileByPath`): the file
id when the file exists, `none` when it does not. -/
def findFileByPath (gsPaths : List String) (p : String) : Option Nat :=
  gsPaths.findIdx? (fun q => q == p)

/-- The helper `findHash`: the hash for `id` from the overriding evictions
map when present, else from the (pre-update) stored hash vector. -/
def findHash (id : Nat) (globalStateHashes : List FileHash)
    (overriddingStateHashes : Evictions) : FileHash :=
  match overriddingStateHashes.lookup id with
  | some h => h
  | none => globalStateHashes.getD id ⟨HASH_STATE_NOT_COMPUTED⟩

/-- The fast-path decision `canTakeFastPath`.  `disableFastPath` is the
`config.disableFastPath` flag.  The per-file loop walks the update's files
and hashes in parallel (their lengths are equal by the `ENFORCE`d
parallel-arrays invariant). -/
def canTakeFastPath (disableFastPath : Bool) (gsPaths : List String)
    (globalStateHashes : List FileHash) (updates : LSPFileUpdates)
    (overriddingStateHashes : Evictions) : Bool :=
  if disableFastPath then false
  else if updates.hasNewFiles then false
  else
    (updates.updatedFiles.zip updates.updatedFileHashes).all fun fh =>
      match findFileByPath gsPaths fh.1.path with
      | none => false
      | some id =>
        if fh.2.hierarchyHash == HASH_STATE_INVALID then false
        else if fh.2.hierarchyHash != HASH_STATE_INVALID &&
            fh.2.hierarchyHash !=
              (findHash id globalStateHashes overriddingStateHashes).hierarchyHash then false
        else true

/-- The combined evictions map built by `LSPLoop::mergeUpdates`: start from
the newer evictions and add each older entry whose key is not yet present. -/
def combineEvictions (newerEvictions olderEvictions : Evictions) : Evictions :=
  olderEvictions.foldl
    (fun acc e => if (acc.lookup e.1).isSome then acc else acc ++ [e]) newerEvictions

/-- One merged entry list: all newer entries (recording their paths), then
every older entry whose path has not been encountered. -/
def mergeEntries (newerEntries olderEntries : List (SrcFile × FileHash × ParsedFile)) :
    List (SrcFile × FileHash × ParsedFile) :=
  newerEntries ++ go (newerEntries.map fun e => e.1.path) olderEntries
where
  /-- The older-entries loop: skip paths already encountered. -/
  go : List String → List (SrcFile × FileHash × ParsedFile) →
      List (SrcFile × FileHash × ParsedFile)
    | _, [] => []
    | enc, e :: rest =>
        if e.1.path ∈ enc then go enc rest
        else e :: go (e.1.path :: enc) rest

/-- The zip of an update's three parallel arrays. -/
def LSPFileUpdates.entries (u : LSPFileUpdates) : List (SrcFile × FileHash × ParsedFile) :=
  u.updatedFiles.zip (u.updatedFileHashes.zip u.updatedFileIndexes)

/-- The edit merge `LSPLoop::mergeUpdates`.  `gsPaths`, `globalStateHashes`
and `disableFastPath` are the members of `LSPLoop` / its configuration that
the recomputation of `canTakeFastPath` reads. -/
def mergeUpdates (disableFastPath : Bool) (gsPaths : List String)
    (globalStateHashes : List FileHash)
    (older : LSPFileUpdates) (olderEvictions : Evictions)
    (newer : LSPFileUpdates) (newerEvictions : Evictions) : LSPFileUpdates :=
  let entries :=
    (mergeEntries newer.entries older.entries).map fun e =>
      (e.1, e.2.1, ParsedFile.mk (deepCopy e.2.2.tree) e.2.2.file)
  let merged : LSPFileUpdates :=
    { epoch := newer.epoch
      editCount := older.editCount + newer.editCount
      hasNewFiles := older.hasNewFiles || newer.hasNewFiles
      updatedFiles := entries.map fun e => e.1
      updatedFileHashes := entries.map fun e => e.2.1
      updatedFileIndexes := entries.map fun e => e.2.2
      canTakeFastPath := false }
  { merged with
    canTakeFastPath :=
      canTakeFastPath disableFastPath gsPaths globalStateHashes merged
        (combineEvictions newerEvictions olderEvictions) }

/-- The slow-path cancelation step at the end of `LSPLoop::commitEdit`
(taken when a cancelable slow path is in flight).  `tryCancelSlowPath`
models `GlobalState::tryCancelSlowPath`, whose success depends on the
concurrent typechecker thread; it is an oracle parameter.  The result is
the dispatched update together with the epoch passed to the (single)
cancelation attempt, or `none` when no attempt is made. -/
def commitEditCancelStep (merged update : LSPFileUpdates)
    (tryCancelSlowPath : Nat → Bool) : LSPFileUpdates × Option Nat :=
  if merged.canTakeFastPath || !update.canTakeFastPath then
    if tryCancelSlowPath merged.epoch then (merged, some merged.epoch)
    else (update, some merged.epoch)
  else (update, none)

/-! ### Fast-path decision: C3 and C6 -/

/-- Modelled from the spec (§4.5): the conjunction of conditions the spec
says is equivalent to the fast-path decision. -/
def fastPathSpec (disableFastPath : Bool) (gsPaths : List String)
    (globalStateHashes : List FileHash) (u : LSPFileUpdates) (ov : Evictions) : Prop :=
  disableFastPath = false ∧ u.hasNewFiles = false ∧
  ∀ fh ∈ u.updatedFiles.zip u.updatedFileHashes,
    ∃ id, findFileByPath gsPaths fh.1.path = some id ∧
      fh.2.hierarchyHash ≠ HASH_STATE_INVALID ∧
      fh.2.hierarchyHash = (findHash id globalStateHashes ov).hierarchyHash

/-- Per-file check of `canTakeFastPath`, in iff form. -/
theorem fastPath_file_check_iff (gsPaths : List String) (gh : List FileHash)
    (ov : Evictions) (f : SrcFile) (h : FileHash) :
    (match findFileByPath gsPaths f.path with
      | none => false
      | some id =>
        if h.hierarchyHash == HASH_STATE_INVALID then false
        else if h.hierarchyHash != HASH_STATE_INVALID &&
            h.hierarchyHash != (findHash id gh ov).hierarchyHash then false
        else true) = true ↔
    ∃ id, findFileByPath gsPaths f.path = some id ∧
      h.hierarchyHash ≠ HASH_STATE_INVALID ∧
      h.hierarchyHash = (findHash id gh ov).hierarchyHash := by
  cases hf : findFileByPath gsPaths f.path with
  | none => simp
  | some id =>
    by_cases hinv : h.hierarchyHash = HASH_STATE_INVALID <;>
      by_cases heq : h.hierarchyHash = (findHash id gh ov).hierarchyHash <;>
        simp [hinv, heq]

/-- Shared helper: the fast-path decision, characterized as the spec's
conjunction of per-file conditions. -/
theorem canTakeFastPath_iff_spec (disableFastPath : Bool) (gsPaths : List String)
    (globalStateHashes : List FileHash) (u : LSPFileUpdates) (ov : Evictions) :
    canTakeFastPath disableFastPath gsPaths globalStateHashes u ov = true ↔
    fastPathSpec disableFastPath gsPaths globalStateHashes u ov := by
  unfold canTakeFastPath fastPathSpec
  cases disableFastPath with
  | true => simp
  | false =>
    cases hnew : u.hasNewFiles with
    | true => simp [hnew]
    | false =>
      simp only [if_false, Bool.false_eq_true, hnew, if_true, List.all_eq_true]
      constructor
      · intro hall
        exact ⟨trivial, trivial, fun fh hm => (fastPath_file_check_iff _ _ _ _ _).mp (hall fh hm)⟩
      · intro ⟨_, _, hall⟩ fh hm
        exact (fastPath_file_check_iff _ _ _ _ _).mpr (hall fh hm)

/-- C3.  The fast-path decision returns true iff: the fast path is not
globally disabled, the update has no new files, and every updated file
already exists in the snapshot, has a non-`INVALID` `hierarchyHash`, and
that hash equals the previous one (overriding evictions map first,
otherwise the stored hash vector). -/
theorem c3_fastPath_decision_iff (disableFastPath : Bool) (gsPaths : List String)
    (globalStateHashes : List FileHash) (u : LSPFileUpdates) (ov : Evictions) :
    canTakeFastPath disableFastPath gsPaths globalStateHashes u ov = true ↔
    fastPathSpec disableFastPath gsPaths globalStateHashes u ov :=
  canTakeFastPath_iff_spec disableFastPath gsPaths globalStateHashes u ov

/-- Snapshot for the C6 counterexample: one file `x.rb` whose stored
`hierarchyHash` is the `INVALID` sentinel (a syntax error). -/
def c6Snapshot : List String := ["x.rb"]

def c6Hashes : List FileHash := [⟨HASH_STATE_INVALID⟩]

/-- An update to `x.rb` whose new `hierarchyHash` equals the stored one
(both `INVALID`) and which adds no new file. -/
def c6Update : LSPFileUpdates :=
  { epoch := 1
    editCount := 1
    hasNewFiles := false
    updatedFiles := [⟨"x.rb", "def f(; end"⟩]
    updatedFileHashes := [⟨HASH_STATE_INVALID⟩]
    updatedFileIndexes := [⟨.EmptyTree, 0⟩]
    canTakeFastPath := false }

/-- C6 counterexample: for `c6Update` every updated file exists in the
snapshot and its new `hierarchyHash` equals the snapshot's stored hash, no
new files appear, and the fast path is not disabled — yet the decision is
`false` (the hash is the `INVALID` sentinel, so the syntax-error branch
fires first). -/
theorem c6_counterexample :
    findFileByPath c6Snapshot "x.rb" = some 0 ∧
    (c6Update.updatedFiles.map fun f => f.path) = ["x.rb"] ∧
    (c6Update.updatedFileHashes.map fun h => h.hierarchyHash) =
      (c6Hashes.map fun h => h.hierarchyHash) ∧
    c6Update.hasNewFiles = false ∧
    canTakeFastPath false c6Snapshot c6Hashes c6Update [] = false := by
  decide

/-- C6 amended: additionally assuming that the fast path is not globally
disabled and that no updated file's new `hierarchyHash` is the `INVALID`
sentinel, an update in which every updated file exists in the snapshot with
its new `hierarchyHash` equal to the stored one, and which has no new
files, is classified `can_take_fast_path = true`. -/
theorem c6_fastPath_on_unchanged_hashes (disableFastPath : Bool)
    (gsPaths : List String) (globalStateHashes : List FileHash) (u : LSPFileUpdates)
    (hdis : disableFastPath = false) (hnew : u.hasNewFiles = false)
    (hfiles : ∀ fh ∈ u.updatedFiles.zip u.updatedFileHashes,
      fh.2.hierarchyHash ≠ HASH_STATE_INVALID ∧
      ∃ id, findFileByPath gsPaths fh.1.path = some id ∧
        fh.2.hierarchyHash =
          (globalStateHashes.getD id ⟨HASH_STATE_NOT_COMPUTED⟩).hierarchyHash) :
    canTakeFastPath disableFastPath gsPaths globalStateHashes u [] = true := by
  rw [canTakeFastPath_iff_spec]
  refine ⟨hdis, hnew, fun fh hm => ?_⟩
  obtain ⟨hninv, id, hfind, heq⟩ := hfiles fh hm
  exact ⟨id, hfind, hninv, by simpa [findHash] using heq⟩

/-- Witness update for the amended C6: one changed file whose hash matches
the snapshot. -/
def c6WitnessUpdate : LSPFileUpdates :=
  { epoch := 2
    editCount := 1
    hasNewFiles := false
    updatedFiles := [⟨"x.rb", "class X; end"⟩]
    updatedFileHashes := [⟨5⟩]
    updatedFileIndexes := [⟨.EmptyTree, 0⟩]
    canTakeFastPath := false }

/-- C4.  With a cancelable slow path (last update `lastSlow`, evictions
`lastEv`) in flight, the committer attempts `tryCancelSlowPath` at the
merged update's epoch exactly when the merged update can take the fast path
or the incoming update `u` cannot; the dispatched update is the merged one
exactly when the attempt is made and succeeds, and `u` unchanged otherwise. -/
theorem c4_commit_cancel_decision (disableFastPath : Bool) (gsPaths : List String)
    (globalStateHashes : List FileHash) (lastSlow u : LSPFileUpdates)
    (lastEv newEv : Evictions) (tryCancelSlowPath : Nat → Bool) :
    let merged := mergeUpdates disableFastPath gsPaths globalStateHashes
      lastSlow lastEv u newEv
    let r := commitEditCancelStep merged u tryCancelSlowPath
    (r.2 = some merged.epoch ↔
      (merged.canTakeFastPath = true ∨ u.canTakeFastPath = false)) ∧
    r.1 = (if (merged.canTakeFastPath || !u.canTakeFastPath) &&
        tryCancelSlowPath merged.epoch then merged else u) := by
  intro merged r
  have hcases :
      ∀ m : LSPFileUpdates,
        ((commitEditCancelStep m u tryCancelSlowPath).2 = some m.epoch ↔
          (m.canTakeFastPath = true ∨ u.canTakeFastPath = false)) ∧
        (commitEditCancelStep m u tryCancelSlowPath).1 =
          (if (m.canTakeFastPath || !u.canTakeFastPath) &&
              tryCancelSlowPath m.epoch then m else u) := by
    intro m
    cases hc : (m.canTakeFastPath || !u.canTakeFastPath) with
    | false =>
      have h1 : m.canTakeFastPath = false := by
        cases hm : m.canTakeFastPath <;> simp_all
      have h2 : u.canTakeFastPath = true := by
        cases hu : u.canTakeFastPath <;> simp_all
      simp [commitEditCancelStep, hc, h1, h2]
    | true =>
      cases ho : tryCancelSlowPath m.epoch <;>
        simp [commitEditCancelStep, hc, ho] <;>
        rcases Bool.or_eq_true _ _ |>.mp hc with h | h <;> simp_all
  exact hcases merged

/-! ### Merge helper lemmas -/

/-- Every entry produced by the older-entries loop comes from its input. -/
theorem mergeEntries_go_mem {x : SrcFile × FileHash × ParsedFile} :
    ∀ (enc : List String) (l : List (SrcFile × FileHash × ParsedFile)),
      x ∈ mergeEntries.go enc l → x ∈ l := by
  intro enc l
  induction l generalizing enc with
  | nil => simp [mergeEntries.go]
  | cons e rest ih =>
    intro hm
    unfold mergeEntries.go at hm
    by_cases he : e.1.path ∈ enc
    · simp only [he, if_true] at hm
      exact List.mem_cons_of_mem e (ih enc hm)
    · simp only [he, if_false] at hm
      rcases List.mem_cons.mp hm with h | h
      · exact h ▸ List.mem_cons_self e rest
      · exact List.mem_cons_of_mem e (ih _ h)

/-- When the older update has no duplicate paths, the older-entries loop is
a filter on paths not yet encountered. -/
theorem mergeEntries_go_eq_filter (enc : List String)
    (l : List (SrcFile × FileHash × ParsedFile))
    (h : (l.map fun e => e.1.path).Nodup) :
    mergeEntries.go enc l = l.filter fun e => decide (e.1.path ∉ enc) := by
  induction l generalizing enc with
  | nil => simp [mergeEntries.go]
  | cons e rest ih =>
    simp only [List.map_cons, List.nodup_cons, List.mem_map] at h
    obtain ⟨hhd, htl⟩ := h
    unfold mergeEntries.go
    by_cases he : e.1.path ∈ enc
    · have hp : decide (e.1.path ∉ enc) = false := by simp [he]
      rw [if_pos he, ih enc htl]
      simp [List.filter_cons, hp, he]
    · have hp : decide (e.1.path ∉ enc) = true := by simp [he]
      rw [if_neg he, ih _ htl]
      simp only [List.filter_cons, hp, if_true]
      refine congrArg _ (List.filter_congr fun x hx => ?_)
      have hne : x.1.path ≠ e.1.path := fun hc => hhd ⟨x, hx, hc⟩
      simp [List.mem_cons, hne]

/-- Membership in a zip of three parallel lists projects to the first two. -/
theorem zip3_mem_zip2 {α β γ : Type _} {a : α} {b : β} {c : γ} :
    ∀ (l1 : List α) (l2 : List β) (l3 : List γ),
      (a, b, c) ∈ l1.zip (l2.zip l3) → (a, b) ∈ l1.zip l2 := by
  intro l1
  induction l1 with
  | nil => simp
  | cons x xs ih =>
    intro l2 l3 hm
    cases l2 with
    | nil => simp at hm
    | cons y ys =>
      cases l3 with
      | nil => simp at hm
      | cons z zs =>
        simp only [List.zip_cons_cons, List.mem_cons, Prod.mk.injEq] at hm ⊢
        rcases hm with ⟨ha, hb, _⟩ | hm
        · exact Or.inl ⟨ha, hb⟩
        · exact Or.inr (ih ys zs hm)

/-- A key present in an association list looks up to something. -/
theorem lookup_isSome_of_mem {β : Type _} (e : Nat × β) :
    ∀ l : List (Nat × β), e ∈ l → (List.lookup e.1 l).isSome := by
  intro l
  induction l with
  | nil => simp
  | cons x xs ih =>
    intro hm
    by_cases hk : e.1 = x.1
    · simp [List.lookup, hk]
    · have : (e.1 == x.1) = false := by simpa using hk
      rcases List.mem_cons.mp hm with h | h
      · exact absurd (congrArg Prod.fst h) hk
      · simpa [List.lookup, this] using ih h

/-- Combining an evictions map with itself gives it back: each older entry's
key is already present. -/
theorem combineEvictions_self (ov : Evictions) : combineEvictions ov ov = ov := by
  unfold combineEvictions
  have aux : ∀ (l acc : Evictions), (∀ e ∈ l, (List.lookup e.1 acc).isSome) →
      l.foldl (fun acc e => if (acc.lookup e.1).isSome then acc else acc ++ [e]) acc = acc := by
    intro l
    induction l with
    | nil => intro acc _; rfl
    | cons x xs ih =>
      intro acc h
      have hx : (List.lookup x.1 acc).isSome = true := h x (List.mem_cons_self x xs)
      simp only [List.foldl_cons, hx, if_true]
      exact ih acc fun e he => h e (List.mem_cons_of_mem x he)
  exact aux ov ov fun e he => lookup_isSome_of_mem e ov he

/-- The projection to files and hashes of a merged update's entry list. -/
theorem entries_zip_files_hashes (u : LSPFileUpdates) {f : SrcFile} {h : FileHash}
    {pf : ParsedFile} (hm : (f, h, pf) ∈ u.entries) :
    (f, h) ∈ u.updatedFiles.zip u.updatedFileHashes :=
  zip3_mem_zip2 u.updatedFiles u.updatedFileHashes u.updatedFileIndexes hm

/-- A merged update's entry list, in terms of `mergeEntries`. -/
theorem mergeUpdates_entries (disableFastPath : Bool) (gsPaths : List String)
    (globalStateHashes : List FileHash) (older newer : LSPFileUpdates)
    (olderEvictions newerEvictions : Evictions) :
    (mergeUpdates disableFastPath gsPaths globalStateHashes
        older olderEvictions newer newerEvictions).entries =
      (mergeEntries newer.entries older.entries).map
        (fun e => (e.1, e.2.1, ParsedFile.mk (deepCopy e.2.2.tree) e.2.2.file)) := by
  simp [mergeUpdates, LSPFileUpdates.entries, List.zip_map', List.map_map]

/-- A merged update's files-and-hashes zip, in terms of `mergeEntries`. -/
theorem mergeUpdates_zip_files_hashes (disableFastPath : Bool) (gsPaths : List String)
    (globalStateHashes : List FileHash) (older newer : LSPFileUpdates)
    (olderEvictions newerEvictions : Evictions) :
    ((mergeUpdates disableFastPath gsPaths globalStateHashes
        older olderEvictions newer newerEvictions).updatedFiles).zip
      (mergeUpdates disableFastPath gsPaths globalStateHashes
        older olderEvictions newer newerEvictions).updatedFileHashes =
      (mergeEntries newer.entries older.entries).map fun e => (e.1, e.2.1) := by
  simp [mergeUpdates, List.zip_map', List.map_map]

/-- The merged fast-path flag is the decision on the merged update itself
with the combined evictions as overriding map (the flag field itself is not
read by the decision). -/
theorem mergeUpdates_canTakeFastPath (disableFastPath : Bool) (gsPaths : List String)
    (globalStateHashes : List FileHash) (older newer : LSPFileUpdates)
    (olderEvictions newerEvictions : Evictions) :
    (mergeUpdates disableFastPath gsPaths globalStateHashes
        older olderEvictions newer newerEvictions).canTakeFastPath =
      canTakeFastPath disableFastPath gsPaths globalStateHashes
        (mergeUpdates disableFastPath gsPaths globalStateHashes
          older olderEvictions newer newerEvictions)
        (combineEvictions newerEvictions olderEvictions) := rfl

/-- C5.  `mergeUpdates` yields: the newer epoch; summed edit counts; the
parallel entry arrays equal to the newer entries followed by the older
entries whose path the newer update does not touch (newer wins on a path
conflict), each index tree passed through `deepCopy`; and the fast-path
flag recomputed on the merged update with the newer-wins union of the two
evictions maps as overriding map.  The older update is assumed to have no
duplicate paths (the `commitEdit` invariant for committed updates). -/
theorem c5_mergeUpdates_spec (disableFastPath : Bool) (gsPaths : List String)
    (globalStateHashes : List FileHash) (older newer : LSPFileUpdates)
    (olderEvictions newerEvictions : Evictions)
    (hnodup : ((older.entries.map fun e => e.1.path).Nodup)) :
    let merged := mergeUpdates disableFastPath gsPaths globalStateHashes
      older olderEvictions newer newerEvictions
    merged.epoch = newer.epoch ∧
    merged.editCount = older.editCount + newer.editCount ∧
    merged.entries =
      (newer.entries ++ older.entries.filter fun e =>
          decide (e.1.path ∉ newer.entries.map fun x => x.1.path)).map
        (fun e => (e.1, e.2.1, ParsedFile.mk (deepCopy e.2.2.tree) e.2.2.file)) ∧
    merged.parallelArrays ∧
    merged.canTakeFastPath =
      canTakeFastPath disableFastPath gsPaths globalStateHashes merged
        (combineEvictions newerEvictions olderEvictions) := by
  intro merged
  refine ⟨rfl, rfl, ?_, ?_, mergeUpdates_canTakeFastPath _ _ _ _ _ _ _⟩
  · rw [mergeUpdates_entries]
    unfold mergeEntries
    rw [mergeEntries_go_eq_filter _ _ hnodup]
  · unfold merged
    simp [mergeUpdates, LSPFileUpdates.parallelArrays]

/-- C7.  Merge monotonicity: if two updates are each fast-path-eligible
against the same snapshot and the same (consistent) evictions map, their
merge is fast-path-eligible as well. -/
theorem c7_merge_monotonic (disableFastPath : Bool) (gsPaths : List String)
    (globalStateHashes : List FileHash) (A B : LSPFileUpdates) (ov : Evictions)
    (hA : canTakeFastPath disableFastPath gsPaths globalStateHashes A ov = true)
    (hB : canTakeFastPath disableFastPath gsPaths globalStateHashes B ov = true) :
    (mergeUpdates disableFastPath gsPaths globalStateHashes A ov B ov).canTakeFastPath =
      true := by
  obtain ⟨hdis, hAnew, hAfiles⟩ :=
    (canTakeFastPath_iff_spec disableFastPath gsPaths globalStateHashes A ov).mp hA
  obtain ⟨_, hBnew, hBfiles⟩ :=
    (canTakeFastPath_iff_spec disableFastPath gsPaths globalStateHashes B ov).mp hB
  rw [mergeUpdates_canTakeFastPath, combineEvictions_self,
    canTakeFastPath_iff_spec]
  refine ⟨hdis, ?_, ?_⟩
  · simp [mergeUpdates, hAnew, hBnew]
  · intro fh hm
    rw [mergeUpdates_zip_files_hashes] at hm
    obtain ⟨e, he, hfh⟩ := List.mem_map.mp hm
    subst hfh
    rcases List.mem_append.mp he with hBe | hAe
    · obtain ⟨f, h, pf⟩ := e
      exact hBfiles (f, h) (entries_zip_files_hashes B hBe)
    · obtain ⟨f, h, pf⟩ := e
      exact hAfiles (f, h) (entries_zip_files_hashes A (mergeEntries_go_mem _ _ hAe))

/-- Older update for the C5 witness. -/
def c5Older : LSPFileUpdates :=
  { epoch := 1
    editCount := 1
    hasNewFiles := false
    updatedFiles := [⟨"a.rb", "class A; end"⟩]
    updatedFileHashes := [⟨3⟩]
    updatedFileIndexes := [⟨.EmptyTree, 0⟩]
    canTakeFastPath := false }

/-- Newer update for the C5 witness. -/
def c5Newer : LSPFileUpdates :=
  { epoch := 2
    editCount := 1
    hasNewFiles := false
    updatedFiles := [⟨"b.rb", "class B; end"⟩]
    updatedFileHashes := [⟨4⟩]
    updatedFileIndexes := [⟨.EmptyTree, 1⟩]
    canTakeFastPath := false }

/-- Witness for C5 at a concrete pair of updates. -/
theorem c5_mergeUpdates_spec_witness :
    ((c5Older.entries.map fun e => e.1.path).Nodup) ∧
    (let merged := mergeUpdates false ["a.rb", "b.rb"] [⟨3⟩, ⟨4⟩] c5Older [] c5Newer []
     merged.epoch = c5Newer.epoch ∧
     merged.editCount = c5Older.editCount + c5Newer.editCount ∧
     merged.entries =
       (c5Newer.entries ++ c5Older.entries.filter fun e =>
           decide (e.1.path ∉ c5Newer.entries.map fun x => x.1.path)).map
         (fun e => (e.1, e.2.1, ParsedFile.mk (deepCopy e.2.2.tree) e.2.2.file)) ∧
     merged.parallelArrays ∧
     merged.canTakeFastPath =
       canTakeFastPath false ["a.rb", "b.rb"] [⟨3⟩, ⟨4⟩] merged (combineEvictions [] [])) :=
  ⟨by decide,
    c5_mergeUpdates_spec false ["a.rb", "b.rb"] [⟨3⟩, ⟨4⟩] c5Older c5Newer [] [] (by decide)⟩

/-- Update A for the C7 witness: changes `x.rb` keeping its hash. -/
def c7A : LSPFileUpdates :=
  { epoch := 1
    editCount := 1
    hasNewFiles := false
    updatedFiles := [⟨"x.rb", "class X; end"⟩]
    updatedFileHashes := [⟨7⟩]
    updatedFileIndexes := [⟨.EmptyTree, 0⟩]
    canTakeFastPath := false }

/-- Update B for the C7 witness: a later edit to the same file, same hash. -/
def c7B : LSPFileUpdates :=
  { epoch := 2
    editCount := 1
    hasNewFiles := false
    updatedFiles := [⟨"x.rb", "class X; def f; end; end"⟩]
    updatedFileHashes := [⟨7⟩]
    updatedFileIndexes := [⟨.EmptyTree, 0⟩]
    canTakeFastPath := false }

/-- Witness for C7 at a concrete pair of fast-path updates. -/
theorem c7_merge_monotonic_witness :
    canTakeFastPath false ["x.rb"] [⟨7⟩] c7A [] = true ∧
    canTakeFastPath false ["x.rb"] [⟨7⟩] c7B [] = true ∧
    (mergeUpdates false ["x.rb"] [⟨7⟩] c7A [] c7B []).canTakeFastPath = true :=
  ⟨by decide, by decide,
    c7_merge_monotonic false ["x.rb"] [⟨7⟩] c7A c7B [] (by decide) (by decide)⟩

/-- Witness for the amended C6 at a concrete input. -/
theorem c6_fastPath_on_unchanged_hashes_witness :
    canTakeFastPath false ["x.rb"] [⟨5⟩] c6WitnessUpdate [] = true :=
  c6_fastPath_on_unchanged_hashes false ["x.rb"] [⟨5⟩] c6WitnessUpdate rfl rfl
    (by
      intro fh hm
      simp only [c6WitnessUpdate, List.zip_cons_cons, List.zip_nil_right,
        List.mem_singleton] at hm
      subst hm
      exact ⟨by decide, 0, by decide, by decide⟩)

/-! ### Flatfiles rewriter (src/rewriter/Flatfiles.cc) -/

/-- Modelled from the spec: `Expression::isSelfReference` (ast/, outside
src/) — the desugared `self` receiver. -/
def isSelfReference : Expression → Bool
  | .Local n => n == Names.self_
  | _ => false

/-- The helper `getFieldName`: the first argument's symbol name when it is
a symbol literal, else the second argument's symbol name when present and a
symbol literal, else none.  (The caller guarantees at least one argument.) -/
def getFieldName (args : List Expression) : Option String :=
  match args with
  | [] => none
  | a :: rest =>
    match a with
    | .Literal (some s) => some s
    | _ =>
      match rest with
      | .Literal (some s) :: _ => some s
      | _ => none

namespace MK

/-- Modelled from the spec: `ast::MK::Untyped` (ast/Helpers.h, outside
src/) — the untyped type literal. -/
def Untyped : Expression := .Send (.Local Names.self_) Names.untyped []

/-- Modelled from the spec: `ast::MK::Nil`. -/
def Nil : Expression := .Literal none

/-- Modelled from the spec: `ast::MK::Sig0` — a `sig` annotation for a
zero-argument method returning `ret`. -/
def Sig0 (ret : Expression) : Expression :=
  .Send (.Local Names.self_) Names.sig [ret]

/-- Modelled from the spec: `ast::MK::Sig1` — a `sig` annotation for a
one-argument method. -/
def Sig1 (key : Expression) (ty : Expression) (ret : Expression) : Expression :=
  .Send (.Local Names.self_) Names.sig [key, ty, ret]

/-- Modelled from the spec: `ast::MK::Method0` — a zero-argument instance
method definition. -/
def Method0 (name : String) (body : Expression) : Expression :=
  .MethodDef name false [] body

/-- Modelled from the spec: `ast::MK::Method1` — a one-argument instance
method definition. -/
def Method1 (name : String) (arg : Expression) (body : Expression) : Expression :=
  .MethodDef name false [arg] body

/-- Modelled from the spec: `ast::MK::Symbol`. -/
def Symbol (s : String) : Expression := .Literal (some s)

/-- Modelled from the spec: `ast::MK::Local`. -/
def Local (name : String) : Expression := .Local name

end MK

/-- Whether a class body contains a `flatfile!` declaration send. -/
def flatfilesIsFlatfile (rhs : List Expression) : Bool :=
  rhs.any fun stat =>
    match stat with
    | .Send _ fn _ => fn == Names.declareFlatfile
    | _ => false

/-- The accessor methods synthesized for one class-body statement: for a
self-receiver `field`/`from`/`pattern` send with a symbol name argument,
the getter sig and method and the setter sig and method; otherwise
nothing. -/
def flatfileAccessors (stat : Expression) : List Expression :=
  match stat with
  | .Send recv fn args =>
    if (fn != Names.from_ && fn != Names.field && fn != Names.pattern) ||
        !isSelfReference recv || args.length < 1 then []
    else
      match getFieldName args with
      | none => []
      | some name =>
        [MK.Sig0 MK.Untyped,
         MK.Method0 name MK.Nil,
         MK.Sig1 (MK.Symbol Names.arg0) MK.Untyped MK.Untyped,
         MK.Method1 (name ++ "=") (MK.Local Names.arg0) MK.Nil]
  | _ => []

/-- All accessor methods synthesized for a class body, in body order. -/
def buildFlatfileMethods (rhs : List Expression) : List Expression :=
  (rhs.map flatfileAccessors).flatten

/-- The final append loop of `Flatfiles::run`, with the rewritten class
body threaded explicitly and the nullability of the raw `klass` pointer
modelled by an `Option Unit`: appending through a null pointer is the
undefined-behaviour outcome `none`. -/
def flatfilesAppendLoop : Option Unit → List Expression → List Expression →
    Option (List Expression)
  | _, [], rhs => some rhs
  | none, _ :: _, _ => none
  | some (), m :: ms, rhs => flatfilesAppendLoop (some ()) ms (rhs ++ [m])

/-- `Flatfiles::run` on a class with the given kind, ancestors and body:
the resulting class body, or `none` if the null `klass` pointer is
dereferenced. -/
def flatfilesRun (kind : ClassDefKind) (ancestors rhs : List Expression) :
    Option (List Expression) :=
  if kind != ClassDefKind.Class || ancestors.isEmpty then some rhs
  else if !flatfilesIsFlatfile rhs then some rhs
  else
    let methods := buildFlatfileMethods rhs
    let klass : Option Unit := if methods.isEmpty then none else some ()
    flatfilesAppendLoop klass methods rhs

/-- C10.  If no accessor methods are synthesized — the class is not of
kind `Class`, has no ancestors, lacks a `flatfile!` declaration, or has no
self-receiver `field`/`from`/`pattern` send with a symbol name argument —
then `Flatfiles::run` leaves the class body unchanged and never
dereferences the null pointer it assigns: with `methods` empty the append
loop after `klass = nullptr` runs zero iterations. -/
theorem c10_flatfiles_no_null_deref (kind : ClassDefKind)
    (ancestors rhs : List Expression)
    (h : kind ≠ ClassDefKind.Class ∨ ancestors = [] ∨
      flatfilesIsFlatfile rhs = false ∨ buildFlatfileMethods rhs = []) :
    flatfilesRun kind ancestors rhs = some rhs := by
  rcases h with h | h | h | h
  · have hk : (kind != ClassDefKind.Class) = true := by
      cases kind <;> simp_all
    simp [flatfilesRun, hk]
  · simp [flatfilesRun, h]
  · unfold flatfilesRun
    split
    · rfl
    · simp [h, flatfilesAppendLoop]
  · unfold flatfilesRun
    split
    · rfl
    · split
      · rfl
      · simp [h, flatfilesAppendLoop]

/-- Witness for C10: a `flatfile!` class with an ancestor but no accessor
sends, exercising the `klass = nullptr` branch safely. -/
theorem c10_flatfiles_no_null_deref_witness :
    flatfilesRun ClassDefKind.Class [Expression.Local "Base"]
      [Expression.Send (Expression.Local Names.self_) Names.declareFlatfile []] =
      some [Expression.Send (Expression.Local Names.self_) Names.declareFlatfile []] :=
  c10_flatfiles_no_null_deref ClassDefKind.Class [Expression.Local "Base"]
    [Expression.Send (Expression.Local Names.self_) Names.declareFlatfile []]
    (Or.inr (Or.inr (Or.inr (by decide))))

/-! ### The flatten DSL pass (src/dsl/flatten.cc)

`FlattenWalk` is a visitor threaded through `ast::TreeMap`, which walks the
tree parent-first (pre), children in source order, then parent (post).  The
walk is embedded as mutually recursive functions that thread the visitor
state explicitly and perform the visitor's pre/post work inline.  The
`skipMethods` identity set is modelled structurally: an entry is inserted
for exactly the sole `MethodDef` argument of a modifier `Send` and is only
ever queried at that same node, so it is threaded as a `skip` flag to the
direct first argument of such a send.  `TreeMap` recurses into a
`ClassDef`'s ancestors and rhs (not its name), a `MethodDef`'s args and
rhs, a `Send`'s receiver and args, and an `InsSeq`'s stats and result. -/

/-- Whether a tree is an `ast::MethodDef` (`isa_tree<MethodDef>`). -/
def isMethodDefTree : Expression → Bool
  | .MethodDef _ _ _ _ => true
  | _ => false

/-- `FlattenWalk::isMethodModifier`: the method name is one of the Ruby
visibility modifiers, and there is exactly one argument, a `MethodDef`. -/
def isMethodModifier (fn : String) (args : List Expression) : Bool :=
  (fn == Names.private_ || fn == Names.protected_ || fn == Names.public_ ||
      fn == Names.privateClassMethod) &&
    (match args with
      | [a] => isMethodDefTree a
      | _ => false)

/-- A stack frame (`FlattenWalk::MethodData`): the reserved queue slot
(`none` models the source's `-1`) and the static level. -/
structure MethodData where
  idx : Option Nat
  staticLevel : Nat
deriving DecidableEq, Repr

/-- A queue entry (`FlattenWalk::MovedItem`): the moved expression (`none`
models the reserved-but-unfilled `nullptr`) and its static level. -/
structure MovedItem where
  expr : Option Expression
  staticLevel : Nat
deriving DecidableEq, Repr

instance : Inhabited MovedItem := ⟨⟨none, 0⟩⟩

/-- A per-class method set (`FlattenWalk::Methods`): the move queue and the
pending-frame stack (list head = C++ `back()`). -/
structure Methods where
  methods : List MovedItem
  stack : List MethodData
deriving DecidableEq, Repr

/-- The visitor state: the stack of method sets (`FlattenWalk::methodScopes`,
list head = C++ `back()` = current scope). -/
structure FlattenState where
  methodScopes : List Methods
deriving DecidableEq, Repr

/-- `FlattenWalk::curMethodSet` (the scope stack is never empty while the
walk runs; the default is unreachable). -/
def FlattenState.cur (st : FlattenState) : Methods :=
  st.methodScopes.headD ⟨[], []⟩

/-- Replace the current method set. -/
def FlattenState.setCur (st : FlattenState) (m : Methods) : FlattenState :=
  ⟨m :: st.methodScopes.tail⟩

/-- `FlattenWalk::newMethodSet`. -/
def FlattenState.pushScope (st : FlattenState) : FlattenState :=
  ⟨⟨[], []⟩ :: st.methodScopes⟩

/-- `FlattenWalk::popCurMethodDefs`: the current queue, and the state with
the current scope popped. -/
def FlattenState.popScope (st : FlattenState) : List MovedItem × FlattenState :=
  (st.cur.methods, ⟨st.methodScopes.tail⟩)

/-- `FlattenWalk::computeStaticLevel`: the enclosing frame's static level
(0 when the stack is empty) plus 1 for a `self.`-qualified definition. -/
def computeStaticLevel (st : FlattenState) (isSelf : Bool) : Nat :=
  (match st.cur.stack with
    | [] => 0
    | f :: _ => f.staticLevel) +
    (if isSelf then 1 else 0)

/-- The shared pre-visit bookkeeping of `preTransformMethodDef` and
`preTransformSend`: with an empty stack push a `-1` frame (top level of the
class, nothing to move), otherwise reserve a queue slot and push its
index. -/
def pushFrame (st : FlattenState) (staticLevel : Nat) : FlattenState :=
  let m := st.cur
  match m.stack with
  | [] => st.setCur { m with stack := [⟨none, staticLevel⟩] }
  | _ =>
      st.setCur
        { methods := m.methods ++ [default]
          stack := ⟨some m.methods.length, staticLevel⟩ :: m.stack }

/-- The shared post-visit bookkeeping of `postTransformMethodDef` and
`postTransformSend`: pop the top frame; a `-1` frame returns the node
unchanged, otherwise the node fills its reserved slot and an `EmptyTree`
replaces it.  (An empty stack is unreachable: `ENFORCE(!stack.empty())`.) -/
def moveNode (st : FlattenState) (node : Expression) : FlattenState × Expression :=
  let m := st.cur
  match m.stack with
  | [] => (st, node)
  | f :: rest =>
    match f.idx with
    | none => (st.setCur { m with stack := rest }, node)
    | some i =>
        (st.setCur { methods := m.methods.set i ⟨some node, f.staticLevel⟩, stack := rest },
          .EmptyTree)

/-- The static level `preTransformSend` computes for a modifier send: the
level of its sole `MethodDef` argument (the `ENFORCE`d cast). -/
def modifierStaticLevel (st : FlattenState) (args : List Expression) : Nat :=
  match args with
  | .MethodDef _ isSelf _ _ :: _ => computeStaticLevel st isSelf
  | _ => 0

/-- Is a moved item a `sig` send (`cast_tree<Send>` + `fun == sig`)? -/
def isSigSendItem (it : MovedItem) : Bool :=
  match it.expr with
  | some (.Send _ fn _) => fn == Names.sig
  | _ => false

/-- The backward static-level propagation of `addMethods`: each item that
is a `sig` send takes the static level of the item after it (reading the
successor's original level, as the source's left-to-right pass does). -/
def fixupSigLevels : List MovedItem → List MovedItem
  | [] => []
  | [x] => [x]
  | x :: y :: rest =>
      (if isSigSendItem x then { x with staticLevel := y.staticLevel } else x) ::
        fixupSigLevels (y :: rest)

/-- The running maximum of static levels (`highestLevel`). -/
def highestLevel (items : List MovedItem) : Nat :=
  items.foldl (fun acc it => max acc it.staticLevel) 0

/-- `methodDef->setIsSelf(...)` guarded by `cast_tree<MethodDef>`. -/
def setIsSelfIfMethodDef (e : Expression) (b : Bool) : Expression :=
  match e with
  | .MethodDef n _ args body => .MethodDef n b args body
  | e => e

/-- The class-body flush (the private `RHS_store` overload of
`FlattenWalk::addMethods`): the single-moved-item special case, then sig
level fixup, distribution of levels 0/1 into the class body and of each
level `l ≥ 2` into a synthesized `class << self` body appended at the
end. -/
def addMethodsToClassRHS (items : List MovedItem) (rhs : List Expression) :
    List Expression :=
  match items, rhs with
  | [it], [.EmptyTree] => [it.expr.getD .EmptyTree]
  | items, rhs =>
    let hi := highestLevel items
    let moved := (fixupSigLevels items).map fun it =>
      (setIsSelfIfMethodDef (it.expr.getD .EmptyTree) (decide (0 < it.staticLevel)),
        it.staticLevel)
    (rhs ++ (moved.filter fun p => decide (p.2 ≤ 1)).map Prod.fst) ++
      (List.range' 2 (hi - 1)).map fun lvl =>
        .ClassDef .Class (.UnresolvedIdent .Class Names.singleton) []
          ((moved.filter fun p => p.2 == lvl).map Prod.fst)

/-- The program-root flush (the public expression overload of
`FlattenWalk::addMethods`). -/
def addMethodsToTree (items : List MovedItem) (tree : Expression) : Expression :=
  if items.isEmpty then tree
  else
    match items, tree with
    | [it], .EmptyTree => it.expr.getD .EmptyTree
    | items, .InsSeq stats result =>
        .InsSeq (stats ++ items.map fun it => it.expr.getD .EmptyTree) result
    | items, tree =>
        .InsSeq (items.map fun it => it.expr.getD .EmptyTree) tree

mutual

/-- One `TreeMap` visit of an expression with the `FlattenWalk` visitor:
pre-transform, children in source order, post-transform.  `skip` is true
exactly when this node is the sole `MethodDef` argument of a modifier
send already claimed by `preTransformSend` (the `skipMethods` set). -/
def walkExpr (st : FlattenState) (skip : Bool) (e : Expression) :
    FlattenState × Expression :=
  match e with
  | .ClassDef kind name ancestors rhs =>
      let st1 := st.pushScope
      let p1 := walkList st1 ancestors
      let p2 := walkList p1.1 rhs
      let p3 := p2.1.popScope
      (p3.2, .ClassDef kind name p1.2 (addMethodsToClassRHS p3.1 p2.2))
  | .MethodDef n isSelf args body =>
      if skip then
        let p1 := walkList st args
        let p2 := walkExpr p1.1 false body
        (p2.1, .MethodDef n isSelf p1.2 p2.2)
      else
        let st1 := pushFrame st (computeStaticLevel st isSelf)
        let p1 := walkList st1 args
        let p2 := walkExpr p1.1 false body
        moveNode p2.1 (.MethodDef n isSelf p1.2 p2.2)
  | .Send recv fn args =>
      let st1 :=
        if fn == Names.sig || isMethodModifier fn args then
          pushFrame st
            (if isMethodModifier fn args then modifierStaticLevel st args else 0)
        else st
      let p1 := walkExpr st1 false recv
      let p2 := walkArgs p1.1 (isMethodModifier fn args) args
      if fn == Names.sig || isMethodModifier fn p2.2 then
        moveNode p2.1 (.Send p1.2 fn p2.2)
      else
        (p2.1, .Send p1.2 fn p2.2)
  | .InsSeq stats result =>
      let p1 := walkList st stats
      let p2 := walkExpr p1.1 false result
      (p2.1, .InsSeq p1.2 p2.2)
  | e => (st, e)

/-- Visit a send's arguments; only the first can be a skipped `MethodDef`. -/
def walkArgs (st : FlattenState) (skipFirst : Bool) (args : List Expression) :
    FlattenState × List Expression :=
  match args with
  | [] => (st, [])
  | a :: rest =>
      let p1 := walkExpr st skipFirst a
      let p2 := walkList p1.1 rest
      (p2.1, p1.2 :: p2.2)

/-- Visit a list of children in source order. -/
def walkList (st : FlattenState) (es : List Expression) :
    FlattenState × List Expression :=
  match es with
  | [] => (st, [])
  | e :: rest =>
      let p1 := walkExpr st false e
      let p2 := walkList p1.1 rest
      (p2.1, p1.2 :: p2.2)

end

/-- `Flatten::run`: apply the walk from a fresh visitor (whose constructor
pushes the root method set), then flush the root set into the tree. -/
def flattenRun (tree : Expression) : Expression :=
  let st0 : FlattenState := ⟨[⟨[], []⟩]⟩
  let p := walkExpr st0 false tree
  addMethodsToTree p.1.cur.methods p.2

/-! ### The post-flatten invariant (spec §3 / F2) and method multisets -/

/-- Modelled from the spec (§3): a movable `Send` — a `sig` send, or a
visibility-modifier send whose sole argument is a `MethodDef`. -/
def isMovableSend : Expression → Bool
  | .Send _ fn args => fn == Names.sig || isMethodModifier fn args
  | _ => false

/-- Modelled from the spec (§3 invariant and F2): a node violates the
post-flatten invariant when it is neither a `ClassDef` nor a `MethodDef`
and a direct child is a `MethodDef` or a movable `Send` — except that a
modifier `Send` may carry its sole `MethodDef` argument (its receiver must
still be clean). -/
def nodeViolates : Expression → Bool
  | .ClassDef _ _ _ _ => false
  | .MethodDef _ _ _ _ => false
  | .Send recv fn args =>
      if isMethodModifier fn args then
        isMethodDefTree recv || isMovableSend recv
      else
        (recv :: args).any fun c => isMethodDefTree c || isMovableSend c
  | .InsSeq stats result =>
      (result :: stats).any fun c => isMethodDefTree c || isMovableSend c
  | _ => false

mutual

/-- Does any node of the tree violate the post-flatten invariant? -/
def treeViolates (e : Expression) : Bool :=
  nodeViolates e ||
    (match e with
      | .ClassDef _ n anc rhs => treeViolates n || treeViolatesList anc || treeViolatesList rhs
      | .MethodDef _ _ args body => treeViolatesList args || treeViolates body
      | .Send recv _ args => treeViolates recv || treeViolatesList args
      | .InsSeq stats result => treeViolatesList stats || treeViolates result
      | _ => false)

/-- Does any node in the list violate the post-flatten invariant? -/
def treeViolatesList : List Expression → Bool
  | [] => false
  | e :: rest => treeViolates e || treeViolatesList rest

end

mutual

/-- The multiset of `MethodDef` names occurring anywhere in a tree. -/
def methodNames : Expression → Multiset String
  | .ClassDef _ name anc rhs => methodNames name + methodNamesList anc + methodNamesList rhs
  | .MethodDef n _ args body => {n} + methodNamesList args + methodNames body
  | .Send recv _ args => methodNames recv + methodNamesList args
  | .InsSeq stats result => methodNamesList stats + methodNames result
  | _ => 0

/-- The multiset of `MethodDef` names occurring anywhere in a list of trees. -/
def methodNamesList : List Expression → Multiset String
  | [] => 0
  | e :: rest => methodNames e + methodNamesList rest

end

mutual

/-- The multiset of (name, body) pairs of the `MethodDef`s in a tree. -/
def methodNameBodies : Expression → Multiset (String × Expression)
  | .ClassDef _ name anc rhs =>
      methodNameBodies name + methodNameBodiesList anc + methodNameBodiesList rhs
  | .MethodDef n _ args body => {(n, body)} + methodNameBodiesList args + methodNameBodies body
  | .Send recv _ args => methodNameBodies recv + methodNameBodiesList args
  | .InsSeq stats result => methodNameBodiesList stats + methodNameBodies result
  | _ => 0

/-- The multiset of (name, body) pairs of the `MethodDef`s in a list. -/
def methodNameBodiesList : List Expression → Multiset (String × Expression)
  | [] => 0
  | e :: rest => methodNameBodies e + methodNameBodiesList rest

end

/-! ### C1, C2, C8: concrete evaluations -/

/-- Failing input for C1, the desugaring of
`class A; foo(def x; end); end`: a `MethodDef` nested in the args of a
send that is not movable (`foo` is no modifier and no `sig`). -/
def c1Input : Expression :=
  .ClassDef .Class (.UnresolvedIdent .Class "A") []
    [.Send .EmptyTree "foo" [.MethodDef "x" false [] .EmptyTree]]

/-- C1 (code bug).  On `c1Input` the flattener returns the tree unchanged:
since the pending stack is empty when the nested `MethodDef` is visited,
`preTransformMethodDef` records slot `-1` ("top level, need not move") even
though the def sits inside a non-movable send's args, so `flatten(T)`
violates the claimed post-flatten invariant. -/
theorem c1_invariant_violated :
    flattenRun c1Input = c1Input ∧ treeViolates (flattenRun c1Input) = true := by
  decide

/-- Input of scenario S1, the desugaring of
`class A; sig{void}; private def foo; sig{void}; def self.bar; end; end; end`. -/
def c2Input : Expression :=
  .ClassDef .Class (.UnresolvedIdent .Class "A") []
    [.Send (.Local "self") Names.sig [],
     .Send (.Local "self") Names.private_
       [.MethodDef "foo" false []
         (.InsSeq [.Send (.Local "self") Names.sig []]
           (.MethodDef "bar" true [] .EmptyTree))]]

/-- What the code actually produces for `c2Input`: the lifted `bar` keeps
`is_static = true` (static level 0 of `foo` plus 1 for `self.`). -/
def c2Actual : Expression :=
  .ClassDef .Class (.UnresolvedIdent .Class "A") []
    [.Send (.Local "self") Names.sig [],
     .Send (.Local "self") Names.private_
       [.MethodDef "foo" false [] (.InsSeq [.EmptyTree] .EmptyTree)],
     .Send (.Local "self") Names.sig [],
     .MethodDef "bar" true [] .EmptyTree]

/-- The output the claim (and the source file's own header comment)
expects: identical except that `bar` has `is_static = false`. -/
def c2Claimed : Expression :=
  .ClassDef .Class (.UnresolvedIdent .Class "A") []
    [.Send (.Local "self") Names.sig [],
     .Send (.Local "self") Names.private_
       [.MethodDef "foo" false [] (.InsSeq [.EmptyTree] .EmptyTree)],
     .Send (.Local "self") Names.sig [],
     .MethodDef "bar" false [] .EmptyTree]

/-- C2 (code bug).  Flattening `c2Input` produces the claimed body order
(sig, emptied `private def foo`, inner sig, lifted `bar`) but with
`is_static = true` on `bar`, contradicting the claim's (and the file
comment's) `is_static = false`. -/
theorem c2_static_level_divergence :
    flattenRun c2Input = c2Actual ∧ c2Actual ≠ c2Claimed := by
  decide

/-! ### Infrastructure for the name-preservation induction (C8) -/

/-- The method names inside one queue entry (`none` counts as nothing). -/
def itemNames (it : MovedItem) : Multiset String :=
  methodNames (it.expr.getD .EmptyTree)

/-- The method names inside a queue. -/
def itemsNames (items : List MovedItem) : Multiset String :=
  (items.map itemNames).sum

/-- The method names parked in all scopes of the visitor state. -/
def stateNames (st : FlattenState) : Multiset String :=
  (st.methodScopes.map fun m => itemsNames m.methods).sum

theorem methodNamesList_append (a b : List Expression) :
    methodNamesList (a ++ b) = methodNamesList a + methodNamesList b := by
  induction a with
  | nil => simp [methodNamesList]
  | cons e rest ih => simp [methodNamesList, ih, add_assoc]

theorem itemsNames_append (a b : List MovedItem) :
    itemsNames (a ++ b) = itemsNames a + itemsNames b := by
  simp [itemsNames]

theorem itemsNames_getD (items : List MovedItem) :
    methodNamesList (items.map fun it => it.expr.getD .EmptyTree) = itemsNames items := by
  induction items with
  | nil => rfl
  | cons it rest ih => simp [methodNamesList, itemsNames, itemNames, *]

/-- Setting the slot that sits right after a prefix. -/
theorem set_append_length {α : Type _} (a : List α) (d : α) (b : List α) (x : α) :
    (a ++ d :: b).set a.length x = a ++ x :: b := by
  induction a with
  | nil => simp
  | cons y ys ih => simp [List.set, ih]

/-- The state-shape relation a walk preserves: same scope-stack depth, each
scope's pending stack restored, each scope's queue only extended. -/
def ScopesExtend (a b : FlattenState) : Prop :=
  List.Forall₂ (fun m m' => m'.stack = m.stack ∧ ∃ ext, m'.methods = m.methods ++ ext)
    a.methodScopes b.methodScopes

theorem ScopesExtend.refl (a : FlattenState) : ScopesExtend a a := by
  have aux : ∀ l : List Methods,
      List.Forall₂ (fun m m' => m'.stack = m.stack ∧ ∃ ext, m'.methods = m.methods ++ ext)
        l l := by
    intro l
    induction l with
    | nil => exact List.Forall₂.nil
    | cons m rest ih => exact List.Forall₂.cons ⟨rfl, [], by simp⟩ ih
  exact aux a.methodScopes

theorem ScopesExtend.trans {a b c : FlattenState} (h1 : ScopesExtend a b)
    (h2 : ScopesExtend b c) : ScopesExtend a c := by
  have aux : ∀ (x y z : List Methods),
      List.Forall₂ (fun m m' => m'.stack = m.stack ∧ ∃ ext, m'.methods = m.methods ++ ext) x y →
      List.Forall₂ (fun m m' => m'.stack = m.stack ∧ ∃ ext, m'.methods = m.methods ++ ext) y z →
      List.Forall₂ (fun m m' => m'.stack = m.stack ∧ ∃ ext, m'.methods = m.methods ++ ext)
        x z := by
    intro x y z hxy
    induction hxy generalizing z with
    | nil =>
      intro hz
      cases hz
      exact List.Forall₂.nil
    | cons hr hrest ih =>
      intro hz
      rcases hz with _ | ⟨hr2, hrest2⟩
      refine List.Forall₂.cons ⟨hr2.1.trans hr.1, ?_⟩ (ih _ hrest2)
      obtain ⟨e1, he1⟩ := hr.2
      obtain ⟨e2, he2⟩ := hr2.2
      exact ⟨e1 ++ e2, by simp [he2, he1]⟩
  exact aux _ _ _ h1 h2

theorem ScopesExtend.length_eq {a b : FlattenState} (h : ScopesExtend a b) :
    a.methodScopes.length = b.methodScopes.length :=
  List.Forall₂.length_eq h

theorem ScopesExtend.ne_nil {a b : FlattenState} (h : ScopesExtend a b)
    (ha : a.methodScopes ≠ []) : b.methodScopes ≠ [] := by
  intro hb
  apply ha
  have := h.length_eq
  rw [hb] at this
  simpa using List.length_eq_zero.mp this

/-- A non-empty scope stack decomposes as current scope and tail. -/
theorem scopes_eq_cur_cons (st : FlattenState) (hne : st.methodScopes ≠ []) :
    st.methodScopes = st.cur :: st.methodScopes.tail := by
  rcases st with ⟨_ | ⟨m, t⟩⟩
  · exact absurd rfl hne
  · rfl

theorem stateNames_setCur (st : FlattenState) (m : Methods) :
    stateNames (st.setCur m) =
      itemsNames m.methods + (st.methodScopes.tail.map fun x => itemsNames x.methods).sum := by
  simp [stateNames, FlattenState.setCur]

theorem stateNames_decompose (st : FlattenState) (hne : st.methodScopes ≠ []) :
    stateNames st =
      itemsNames st.cur.methods +
        (st.methodScopes.tail.map fun x => itemsNames x.methods).sum := by
  conv_lhs => rw [stateNames, scopes_eq_cur_cons st hne]
  simp

theorem pushFrame_stateNames (st : FlattenState) (lvl : Nat) :
    stateNames (pushFrame st lvl) = stateNames st := by
  unfold pushFrame
  rcases hstk : st.cur.stack with _ | ⟨f, fs⟩ <;>
    rcases st with ⟨_ | ⟨m, t⟩⟩ <;>
      simp_all [stateNames, FlattenState.setCur, FlattenState.cur, itemsNames, itemNames,
        methodNames]

theorem pushFrame_ne (st : FlattenState) (lvl : Nat) :
    (pushFrame st lvl).methodScopes ≠ [] := by
  unfold pushFrame
  rcases hstk : st.cur.stack <;> simp [hstk, FlattenState.setCur]

/-- The post-transform move returns either the node itself or `EmptyTree`. -/
theorem moveNode_snd (st : FlattenState) (node : Expression) :
    (moveNode st node).2 = node ∨ (moveNode st node).2 = .EmptyTree := by
  unfold moveNode
  rcases hstk : st.cur.stack with _ | ⟨f, rest⟩
  · simp [hstk]
  · rcases hidx : f.idx <;> simp [hstk, hidx]

mutual

theorem walkList_length (st : FlattenState) (es : List Expression) :
    (walkList st es).2.length = es.length := by
  match es with
  | [] => simp [walkList]
  | e :: rest =>
    simp only [walkList]
    simpa using walkList_length _ rest

theorem walkArgs_length (st : FlattenState) (skipFirst : Bool) (args : List Expression) :
    (walkArgs st skipFirst args).2.length = args.length := by
  match args with
  | [] => simp [walkArgs]
  | a :: rest =>
    simp only [walkArgs]
    simpa using walkList_length _ rest

end

/-- A `Send` walks to an `EmptyTree` or to a `Send` with the same method
name. -/
theorem moveNode_send_shape (st : FlattenState) (r : Expression) (fn : String)
    (a : List Expression) :
    (moveNode st (.Send r fn a)).2 = .EmptyTree ∨
    ∃ r' a', (moveNode st (.Send r fn a)).2 = .Send r' fn a' := by
  rcases moveNode_snd st (.Send r fn a) with heq | heq
  · exact Or.inr ⟨r, a, heq⟩
  · exact Or.inl heq

theorem walkExpr_send_shape (st : FlattenState) (skip : Bool) (recv : Expression)
    (fn : String) (args : List Expression) :
    (walkExpr st skip (.Send recv fn args)).2 = .EmptyTree ∨
    ∃ r a, (walkExpr st skip (.Send recv fn args)).2 = .Send r fn a := by
  simp only [walkExpr]
  repeat' split
  all_goals
    first
      | exact moveNode_send_shape _ _ _ _
      | exact Or.inr ⟨_, _, rfl⟩

/-- The walk never turns a non-`MethodDef` node into a `MethodDef`. -/
theorem walkExpr_methodDefTree (st : FlattenState) (skip : Bool) (e : Expression)
    (h : isMethodDefTree (walkExpr st skip e).2 = true) : isMethodDefTree e = true := by
  cases e with
  | MethodDef n s a b => rfl
  | EmptyTree => simp [walkExpr, isMethodDefTree] at h
  | Literal v => simp [walkExpr, isMethodDefTree] at h
  | Local n => simp [walkExpr, isMethodDefTree] at h
  | UnresolvedIdent k n => simp [walkExpr, isMethodDefTree] at h
  | InsSeq s r => simp [walkExpr, isMethodDefTree] at h
  | ClassDef k nm anc rhs => simp [walkExpr, isMethodDefTree] at h
  | Send recv fn args =>
    exfalso
    rcases walkExpr_send_shape st skip recv fn args with heq | ⟨r, a, heq⟩ <;>
      rw [heq] at h <;> simp [isMethodDefTree] at h

/-- The modifier check `postTransformSend` repeats on the walked arguments
agrees with the one `preTransformSend` made on the original arguments: the
claimed sole `MethodDef` argument is walked with `skip` set and stays a
`MethodDef`, and the walk cannot conjure a `MethodDef` argument. -/
theorem walkArgs_modifier (st : FlattenState) (fn : String) (args : List Expression) :
    isMethodModifier fn (walkArgs st (isMethodModifier fn args) args).2 =
      isMethodModifier fn args := by
  cases hm : isMethodModifier fn args with
  | true =>
    unfold isMethodModifier at hm
    rw [Bool.and_eq_true] at hm
    obtain ⟨hname, hmatch⟩ := hm
    match args, hmatch with
    | [a], hmatch =>
      match a, hmatch with
      | .MethodDef n s ar b, _ =>
        simp only [walkArgs, walkList, walkExpr, if_true]
        simp [isMethodModifier, hname, isMethodDefTree]
  | false =>
    cases hres : isMethodModifier fn (walkArgs st false args).2 with
    | false => rfl
    | true =>
      exfalso
      unfold isMethodModifier at hres
      rw [Bool.and_eq_true] at hres
      obtain ⟨hname, hmatch⟩ := hres
      rcases hout : (walkArgs st false args).2 with _ | ⟨x, rest⟩
      · rw [hout] at hmatch
        simp at hmatch
      rcases rest with _ | ⟨y, rest2⟩
      case cons.cons =>
        rw [hout] at hmatch
        simp at hmatch
      rw [hout] at hmatch
      have hlen := walkArgs_length st false args
      rw [hout] at hlen
      rcases args with _ | ⟨a, arest⟩
      · simp at hlen
      rcases arest with _ | ⟨a2, arest2⟩
      case cons.cons => simp at hlen
      have hx : x = (walkExpr st false a).2 := by
        have hcomp : (walkArgs st false [a]).2 = [(walkExpr st false a).2] := by
          simp [walkArgs, walkList]
        rw [hout] at hcomp
        exact (List.cons.injEq _ _ _ _ ▸ hcomp).1
      have hamd : isMethodDefTree a = true := by
        apply walkExpr_methodDefTree st false a
        rw [← hx]
        exact hmatch
      unfold isMethodModifier at hm
      rw [hname] at hm
      simp [hamd] at hm

/-- The pre-push / walk-children / post-move pattern shared by
`MethodDef` and movable `Send` visits: if the children's walk only extends
the state reached after `pushFrame`, then the `moveNode` at post time pops
exactly the pushed frame, restores the original shape, and accounts the
node's method names to either the tree (slot `-1`) or the queue. -/
theorem moveNode_after (st : FlattenState) (hne : st.methodScopes ≠ []) (lvl : Nat)
    (mid : FlattenState) (hext : ScopesExtend (pushFrame st lvl) mid) (node : Expression) :
    ScopesExtend st (moveNode mid node).1 ∧
    stateNames (moveNode mid node).1 + methodNames (moveNode mid node).2 =
      stateNames mid + methodNames node := by
  obtain ⟨scopes⟩ := st
  rcases scopes with _ | ⟨c0, t0⟩
  · exact absurd rfl hne
  rcases hstk : c0.stack with _ | ⟨f, fs⟩
  · have hpf : pushFrame ⟨c0 :: t0⟩ lvl = ⟨⟨c0.methods, [⟨none, lvl⟩]⟩ :: t0⟩ := by
      simp [pushFrame, FlattenState.cur, hstk, FlattenState.setCur]
    rw [hpf] at hext
    unfold ScopesExtend at hext ⊢
    obtain ⟨ms⟩ := mid
    rcases ms with _ | ⟨m2, t2⟩
    · cases hext
    rcases hext with _ | ⟨hr, hrest⟩
    obtain ⟨hr1, ext, hr2⟩ := hr
    have hmv : moveNode ⟨m2 :: t2⟩ node =
        (⟨⟨m2.methods, []⟩ :: t2⟩, node) := by
      simp only [moveNode, FlattenState.cur, List.headD_cons]
      rw [hr1]
      rfl
    rw [hmv]
    constructor
    · exact List.Forall₂.cons ⟨hstk.symm ▸ rfl, ext, hr2⟩ hrest
    · simp [stateNames]
  · have hpf : pushFrame ⟨c0 :: t0⟩ lvl =
        ⟨⟨c0.methods ++ [default], ⟨some c0.methods.length, lvl⟩ :: c0.stack⟩ :: t0⟩ := by
      simp [pushFrame, FlattenState.cur, hstk, FlattenState.setCur]
    rw [hpf] at hext
    unfold ScopesExtend at hext ⊢
    obtain ⟨ms⟩ := mid
    rcases ms with _ | ⟨m2, t2⟩
    · cases hext
    rcases hext with _ | ⟨hr, hrest⟩
    obtain ⟨hr1, ext, hr2⟩ := hr
    rw [List.append_assoc, List.singleton_append] at hr2
    have hmv : moveNode ⟨m2 :: t2⟩ node =
        (⟨⟨c0.methods ++ ⟨some node, lvl⟩ :: ext, c0.stack⟩ :: t2⟩, .EmptyTree) := by
      simp only [moveNode, FlattenState.cur, List.headD_cons]
      rw [hr1]
      simp only [FlattenState.setCur, List.tail_cons]
      rw [hr2, set_append_length]
    rw [hmv]
    constructor
    · exact List.Forall₂.cons ⟨rfl, ⟨some node, lvl⟩ :: ext, rfl⟩ hrest
    · simp only [stateNames, List.map_cons, List.sum_cons]
      rw [hr2]
      simp [itemsNames_append, itemsNames, itemNames, methodNames,
        add_comm, add_left_comm, add_assoc]

/-! Flush accounting: the class-body and program-root flushes emit exactly
the method names parked in the flushed queue. -/

/-- The names under the expressions of a list of (expression, level) pairs. -/
def pairsNames (l : List (Expression × Nat)) : Multiset String :=
  methodNamesList (l.map Prod.fst)

theorem pairsNames_cons (p : Expression × Nat) (l : List (Expression × Nat)) :
    pairsNames (p :: l) = methodNames p.1 + pairsNames l := by
  simp [pairsNames, methodNamesList]

theorem sum_map_zero {α : Type _} (L : List α) :
    (L.map fun _ => (0 : Multiset String)).sum = 0 := by
  induction L with
  | nil => rfl
  | cons x L ih => simp [ih]

theorem bucketSum_cons_notMem (L : List Nat) (l : List (Expression × Nat))
    (p : Expression × Nat) (h : p.2 ∉ L) :
    (L.map fun lvl => pairsNames ((p :: l).filter fun q => q.2 == lvl)).sum =
      (L.map fun lvl => pairsNames (l.filter fun q => q.2 == lvl)).sum := by
  induction L with
  | nil => rfl
  | cons x L ih =>
    simp only [List.mem_cons, not_or] at h
    have hx : ¬((fun q : Expression × Nat => q.2 == x) p = true) := by simpa using h.1
    simp only [List.map_cons, List.sum_cons]
    rw [@List.filter_cons_of_neg (Expression × Nat) (fun q => q.2 == x) p l hx, ih h.2]

theorem bucketSum_cons_mem (L : List Nat) (l : List (Expression × Nat))
    (p : Expression × Nat) (hnd : L.Nodup) (h : p.2 ∈ L) :
    (L.map fun lvl => pairsNames ((p :: l).filter fun q => q.2 == lvl)).sum =
      methodNames p.1 +
        (L.map fun lvl => pairsNames (l.filter fun q => q.2 == lvl)).sum := by
  induction L with
  | nil => cases h
  | cons x L ih =>
    simp only [List.nodup_cons] at hnd
    by_cases hpx : p.2 = x
    · have hx : (fun q : Expression × Nat => q.2 == x) p = true := by simpa using hpx
      have hnm : p.2 ∉ L := hpx ▸ hnd.1
      simp only [List.map_cons, List.sum_cons]
      rw [@List.filter_cons_of_pos (Expression × Nat) (fun q => q.2 == x) p l hx,
        pairsNames_cons, bucketSum_cons_notMem L l p hnm, add_assoc]
    · have hx : ¬((fun q : Expression × Nat => q.2 == x) p = true) := by simpa using hpx
      have hmem : p.2 ∈ L := by
        rcases List.mem_cons.mp h with h' | h'
        · exact absurd h' hpx
        · exact h'
      simp only [List.map_cons, List.sum_cons]
      rw [@List.filter_cons_of_neg (Expression × Nat) (fun q => q.2 == x) p l hx,
        ih hnd.2 hmem, add_left_comm]

/-- Partitioning a list of levelled expressions into the level-`≤ 1` part
and the buckets for levels `2 .. H` loses no names, provided every level is
at most `H`. -/
theorem pairs_partition (H : Nat) (l : List (Expression × Nat))
    (hb : ∀ p ∈ l, p.2 ≤ H) :
    pairsNames (l.filter fun p => decide (p.2 ≤ 1)) +
      ((List.range' 2 (H - 1)).map fun lvl =>
        pairsNames (l.filter fun q => q.2 == lvl)).sum =
      pairsNames l := by
  induction l with
  | nil =>
    have : ((List.range' 2 (H - 1)).map fun lvl =>
        pairsNames (List.filter (fun q => q.2 == lvl) [])).sum = 0 :=
      sum_map_zero (List.range' 2 (H - 1))
    simp [pairsNames, methodNamesList, this]
  | cons p l ih =>
    have hpH := hb p (List.mem_cons_self p l)
    have hbl : ∀ q ∈ l, q.2 ≤ H := fun q hq => hb q (List.mem_cons_of_mem p hq)
    by_cases hp1 : p.2 ≤ 1
    · have hnm : p.2 ∉ List.range' 2 (H - 1) := by
        intro hc
        have := (List.mem_range'_1.mp hc).1
        omega
      have hf : (fun p : Expression × Nat => decide (p.2 ≤ 1)) p = true := by
        simpa using hp1
      rw [@List.filter_cons_of_pos (Expression × Nat) (fun p => decide (p.2 ≤ 1)) p l hf,
        pairsNames_cons, bucketSum_cons_notMem _ l p hnm, add_assoc, ih hbl, pairsNames_cons]
    · have hmem : p.2 ∈ List.range' 2 (H - 1) :=
        List.mem_range'_1.mpr ⟨by omega, by omega⟩
      have hf : ¬((fun p : Expression × Nat => decide (p.2 ≤ 1)) p = true) := by
        simpa using hp1
      rw [@List.filter_cons_of_neg (Expression × Nat) (fun p => decide (p.2 ≤ 1)) p l hf,
        bucketSum_cons_mem _ l p (List.nodup_range' 2 (H - 1)) hmem, add_left_comm,
        ih hbl, pairsNames_cons]

theorem setIsSelf_names (e : Expression) (b : Bool) :
    methodNames (setIsSelfIfMethodDef e b) = methodNames e := by
  cases e <;> simp [setIsSelfIfMethodDef, methodNames]

theorem fixup_itemsNames (items : List MovedItem) :
    itemsNames (fixupSigLevels items) = itemsNames items := by
  induction items using fixupSigLevels.induct with
  | case1 => rfl
  | case2 x => rfl
  | case3 x y rest ih =>
    simp only [fixupSigLevels, itemsNames, List.map_cons, List.sum_cons] at ih ⊢
    split <;> simp [itemNames, ih]

theorem le_foldl_max (l : List MovedItem) (acc : Nat) :
    acc ≤ l.foldl (fun a it => max a it.staticLevel) acc := by
  induction l generalizing acc with
  | nil => exact Nat.le_refl acc
  | cons x l ih => exact Nat.le_trans (Nat.le_max_left acc x.staticLevel) (ih _)

theorem mem_le_foldl_max (l : List MovedItem) (acc : Nat) (x : MovedItem) (h : x ∈ l) :
    x.staticLevel ≤ l.foldl (fun a it => max a it.staticLevel) acc := by
  induction l generalizing acc with
  | nil => cases h
  | cons y l ih =>
    rcases List.mem_cons.mp h with h' | h'
    · subst h'
      exact Nat.le_trans (Nat.le_max_right acc x.staticLevel) (le_foldl_max l _)
    · exact ih _ h'

theorem mem_le_highestLevel (items : List MovedItem) (x : MovedItem) (h : x ∈ items) :
    x.staticLevel ≤ highestLevel items :=
  mem_le_foldl_max items 0 x h

theorem fixup_levels_mem (items : List MovedItem) (it' : MovedItem)
    (h : it' ∈ fixupSigLevels items) : ∃ it ∈ items, it'.staticLevel = it.staticLevel := by
  induction items using fixupSigLevels.induct with
  | case1 => cases h
  | case2 x =>
    have heq : it' = x := List.mem_singleton.mp h
    exact ⟨x, List.mem_singleton_self x, by rw [heq]⟩
  | case3 x y rest ih =>
    simp only [fixupSigLevels] at h
    rcases List.mem_cons.mp h with h' | h'
    · subst h'
      split
      · exact ⟨y, List.mem_cons_of_mem x (List.mem_cons_self y rest), rfl⟩
      · exact ⟨x, List.mem_cons_self x (y :: rest), rfl⟩
    · obtain ⟨it, hit, heq⟩ := ih h'
      exact ⟨it, List.mem_cons_of_mem x hit, heq⟩

theorem namesList_map_setIsSelf (l : List MovedItem) (b : MovedItem → Bool) :
    methodNamesList (l.map fun it => setIsSelfIfMethodDef (it.expr.getD .EmptyTree) (b it)) =
      itemsNames l := by
  induction l with
  | nil => rfl
  | cons it rest ih => simp [methodNamesList, itemsNames, itemNames, setIsSelf_names, ih]

theorem namesList_blocks (L : List Nat) (moved : List (Expression × Nat)) :
    methodNamesList (L.map fun lvl =>
        .ClassDef .Class (.UnresolvedIdent .Class Names.singleton) []
          ((moved.filter fun p => p.2 == lvl).map Prod.fst)) =
      (L.map fun lvl => pairsNames (moved.filter fun q => q.2 == lvl)).sum := by
  induction L with
  | nil => rfl
  | cons x L ih => simp [methodNamesList, methodNames, pairsNames, ih]

/-- Conversion between the two spellings of a pair list's names. -/
theorem pairsNames_def (l : List (Expression × Nat)) :
    methodNamesList (l.map Prod.fst) = pairsNames l := rfl

/-- The distribution step of the class-body flush loses no names. -/
theorem moved_partition_names (items : List MovedItem) :
    pairsNames (((fixupSigLevels items).map fun it =>
        (setIsSelfIfMethodDef (it.expr.getD .EmptyTree) (decide (0 < it.staticLevel)),
          it.staticLevel)).filter fun p => decide (p.2 ≤ 1)) +
      ((List.range' 2 (highestLevel items - 1)).map fun lvl =>
        pairsNames (((fixupSigLevels items).map fun it =>
          (setIsSelfIfMethodDef (it.expr.getD .EmptyTree) (decide (0 < it.staticLevel)),
            it.staticLevel)).filter fun q => q.2 == lvl)).sum =
      itemsNames items := by
  have hb : ∀ p ∈ ((fixupSigLevels items).map fun it =>
      (setIsSelfIfMethodDef (it.expr.getD .EmptyTree) (decide (0 < it.staticLevel)),
        it.staticLevel)), p.2 ≤ highestLevel items := by
    intro p hp
    obtain ⟨it', hit', rfl⟩ := List.mem_map.mp hp
    obtain ⟨it, hit, heq⟩ := fixup_levels_mem items it' hit'
    simpa [heq] using mem_le_highestLevel items it hit
  rw [pairs_partition (highestLevel items) _ hb, pairsNames, List.map_map]
  have hcomp : (Prod.fst ∘ fun it : MovedItem =>
      (setIsSelfIfMethodDef (it.expr.getD .EmptyTree) (decide (0 < it.staticLevel)),
        it.staticLevel)) = fun it : MovedItem =>
      setIsSelfIfMethodDef (it.expr.getD .EmptyTree) (decide (0 < it.staticLevel)) := rfl
  rw [hcomp, namesList_map_setIsSelf, fixup_itemsNames]

/-- The class-body flush emits exactly the queue's names plus the body's. -/
theorem addMethodsToClassRHS_names (items : List MovedItem) (rhs : List Expression) :
    methodNamesList (addMethodsToClassRHS items rhs) =
      itemsNames items + methodNamesList rhs := by
  unfold addMethodsToClassRHS
  split
  · simp [methodNamesList, itemsNames, itemNames, methodNames]
  · rw [methodNamesList_append, methodNamesList_append, namesList_blocks,
      pairsNames_def, add_assoc, moved_partition_names, add_comm]

/-- The program-root flush emits exactly the queue's names plus the tree's. -/
theorem addMethodsToTree_names (items : List MovedItem) (tree : Expression) :
    methodNames (addMethodsToTree items tree) = itemsNames items + methodNames tree := by
  unfold addMethodsToTree
  split
  · rename_i hempty
    rw [List.isEmpty_iff.mp hempty]
    simp [itemsNames]
  · split
    · simp [methodNames, itemsNames, itemNames]
    · simp [methodNames, methodNamesList_append, itemsNames_getD, add_comm,
        add_left_comm, add_assoc]
    · simp [methodNames, itemsNames_getD, add_comm, add_left_comm, add_assoc]

theorem names_comp2 {S0 S1 S2 L Lw B Bw : Multiset String}
    (h1 : S1 + Lw = S0 + L) (h2 : S2 + Bw = S1 + B) :
    S2 + (Lw + Bw) = S0 + (L + B) := by
  have step1 : S2 + (Lw + Bw) = Lw + (S2 + Bw) := by
    simp [add_comm, add_left_comm, add_assoc]
  rw [step1, h2]
  have step2 : Lw + (S1 + B) = B + (S1 + Lw) := by
    simp [add_comm, add_left_comm, add_assoc]
  rw [step2, h1]
  simp [add_comm, add_left_comm, add_assoc]

theorem names_comp3 {S0 S1 S2 N L Lw B Bw : Multiset String}
    (h1 : S1 + Lw = S0 + L) (h2 : S2 + Bw = S1 + B) :
    S2 + (N + Lw + Bw) = S0 + (N + L + B) := by
  have hc := names_comp2 h1 h2
  calc S2 + (N + Lw + Bw) = N + (S2 + (Lw + Bw)) := by
        simp [add_comm, add_left_comm, add_assoc]
    _ = N + (S0 + (L + B)) := by rw [hc]
    _ = S0 + (N + L + B) := by simp [add_comm, add_left_comm, add_assoc]

theorem pushScope_stateNames (st : FlattenState) :
    stateNames st.pushScope = stateNames st := by
  simp [FlattenState.pushScope, stateNames, itemsNames]

theorem pushScope_ne (st : FlattenState) : st.pushScope.methodScopes ≠ [] := by
  simp [FlattenState.pushScope]

/-! One-step unfolding lemmas for the walk, in the shapes the inductions
use. -/

theorem walkExpr_methodDef_skip (st : FlattenState) (n : String) (s : Bool)
    (args : List Expression) (body : Expression) :
    walkExpr st true (.MethodDef n s args body) =
      ((walkExpr (walkList st args).1 false body).1,
        .MethodDef n s (walkList st args).2 (walkExpr (walkList st args).1 false body).2) := by
  simp only [walkExpr, if_true]

theorem walkExpr_methodDef_move (st : FlattenState) (n : String) (s : Bool)
    (args : List Expression) (body : Expression) :
    walkExpr st false (.MethodDef n s args body) =
      moveNode (walkExpr (walkList (pushFrame st (computeStaticLevel st s)) args).1 false body).1
        (.MethodDef n s (walkList (pushFrame st (computeStaticLevel st s)) args).2
          (walkExpr (walkList (pushFrame st (computeStaticLevel st s)) args).1 false body).2) := by
  simp only [walkExpr, Bool.false_eq_true, if_false]

theorem walkExpr_classDef_eq (st : FlattenState) (k : ClassDefKind) (nm : Expression)
    (anc rhs : List Expression) (skip : Bool) :
    walkExpr st skip (.ClassDef k nm anc rhs) =
      (⟨(walkList (walkList st.pushScope anc).1 rhs).1.methodScopes.tail⟩,
        .ClassDef k nm (walkList st.pushScope anc).2
          (addMethodsToClassRHS (walkList (walkList st.pushScope anc).1 rhs).1.cur.methods
            (walkList (walkList st.pushScope anc).1 rhs).2)) := by
  simp only [walkExpr, FlattenState.popScope]

theorem walkExpr_send_movable (st : FlattenState) (skip : Bool) (recv : Expression)
    (fn : String) (args : List Expression)
    (hmov : (fn == Names.sig || isMethodModifier fn args) = true) :
    walkExpr st skip (.Send recv fn args) =
      moveNode
        (walkArgs (walkExpr (pushFrame st
            (if isMethodModifier fn args then modifierStaticLevel st args else 0))
            false recv).1 (isMethodModifier fn args) args).1
        (.Send (walkExpr (pushFrame st
            (if isMethodModifier fn args then modifierStaticLevel st args else 0))
            false recv).2 fn
          (walkArgs (walkExpr (pushFrame st
            (if isMethodModifier fn args then modifierStaticLevel st args else 0))
            false recv).1 (isMethodModifier fn args) args).2) := by
  have hpost : (fn == Names.sig || isMethodModifier fn
      (walkArgs (walkExpr (pushFrame st
          (if isMethodModifier fn args then modifierStaticLevel st args else 0))
          false recv).1 (isMethodModifier fn args) args).2) = true := by
    rw [walkArgs_modifier]
    exact hmov
  simp only [walkExpr, hmov, if_true, hpost]

theorem walkExpr_send_plain (st : FlattenState) (skip : Bool) (recv : Expression)
    (fn : String) (args : List Expression)
    (hmov : (fn == Names.sig || isMethodModifier fn args) = false) :
    walkExpr st skip (.Send recv fn args) =
      ((walkArgs (walkExpr st false recv).1 (isMethodModifier fn args) args).1,
        .Send (walkExpr st false recv).2 fn
          (walkArgs (walkExpr st false recv).1 (isMethodModifier fn args) args).2) := by
  have hpost : (fn == Names.sig || isMethodModifier fn
      (walkArgs (walkExpr st false recv).1 (isMethodModifier fn args) args).2) = false := by
    rw [walkArgs_modifier]
    exact hmov
  simp only [walkExpr, hmov, Bool.false_eq_true, if_false, hpost]

mutual

/-- The walk preserves the scope shape and accounts every method name:
what leaves the tree is exactly what lands in the queues. -/
theorem walkExpr_names (st : FlattenState) (skip : Bool) (e : Expression)
    (hne : st.methodScopes ≠ []) :
    ScopesExtend st (walkExpr st skip e).1 ∧
    stateNames (walkExpr st skip e).1 + methodNames (walkExpr st skip e).2 =
      stateNames st + methodNames e := by
  match e with
  | .EmptyTree => exact ⟨ScopesExtend.refl st, rfl⟩
  | .Literal v => exact ⟨ScopesExtend.refl st, rfl⟩
  | .Local n => exact ⟨ScopesExtend.refl st, rfl⟩
  | .UnresolvedIdent k n => exact ⟨ScopesExtend.refl st, rfl⟩
  | .InsSeq stats result =>
    have h1 := walkList_names st stats hne
    have h2 := walkExpr_names (walkList st stats).1 false result (h1.1.ne_nil hne)
    simp only [walkExpr]
    exact ⟨h1.1.trans h2.1, by
      simp only [methodNames]
      have := names_comp2 h1.2 h2.2
      calc stateNames (walkExpr (walkList st stats).1 false result).1 +
            (methodNamesList (walkList st stats).2 +
              methodNames (walkExpr (walkList st stats).1 false result).2) =
          stateNames st + (methodNamesList stats + methodNames result) := this⟩
  | .MethodDef n s args body =>
    cases skip with
    | true =>
      have h1 := walkList_names st args hne
      have h2 := walkExpr_names (walkList st args).1 false body (h1.1.ne_nil hne)
      rw [walkExpr_methodDef_skip]
      exact ⟨h1.1.trans h2.1, by
        simp only [methodNames]
        exact names_comp3 h1.2 h2.2⟩
    | false =>
      rw [walkExpr_methodDef_move]
      have hne1 := pushFrame_ne st (computeStaticLevel st s)
      have h1 := walkList_names (pushFrame st (computeStaticLevel st s)) args hne1
      have h2 := walkExpr_names (walkList (pushFrame st (computeStaticLevel st s)) args).1
        false body (h1.1.ne_nil hne1)
      have hmv := moveNode_after st hne (computeStaticLevel st s) _ (h1.1.trans h2.1)
        (.MethodDef n s (walkList (pushFrame st (computeStaticLevel st s)) args).2
          (walkExpr (walkList (pushFrame st (computeStaticLevel st s)) args).1 false body).2)
      refine ⟨hmv.1, ?_⟩
      rw [hmv.2]
      simp only [methodNames]
      have h1' : stateNames (walkList (pushFrame st (computeStaticLevel st s)) args).1 +
          methodNamesList (walkList (pushFrame st (computeStaticLevel st s)) args).2 =
          stateNames st + methodNamesList args := by
        rw [h1.2, pushFrame_stateNames]
      exact names_comp3 h1' h2.2
  | .Send recv fn args =>
    cases hmov : (fn == Names.sig || isMethodModifier fn args) with
    | true =>
      rw [walkExpr_send_movable st skip recv fn args hmov]
      have hne1 := pushFrame_ne st
        (if isMethodModifier fn args then modifierStaticLevel st args else 0)
      have h1 := walkExpr_names (pushFrame st
        (if isMethodModifier fn args then modifierStaticLevel st args else 0))
        false recv hne1
      have h2 := walkArgs_names (walkExpr (pushFrame st
        (if isMethodModifier fn args then modifierStaticLevel st args else 0))
        false recv).1 (isMethodModifier fn args) args (h1.1.ne_nil hne1)
      have hmv := moveNode_after st hne
        (if isMethodModifier fn args then modifierStaticLevel st args else 0)
        _ (h1.1.trans h2.1)
        (.Send (walkExpr (pushFrame st
            (if isMethodModifier fn args then modifierStaticLevel st args else 0))
            false recv).2 fn
          (walkArgs (walkExpr (pushFrame st
            (if isMethodModifier fn args then modifierStaticLevel st args else 0))
            false recv).1 (isMethodModifier fn args) args).2)
      refine ⟨hmv.1, ?_⟩
      rw [hmv.2]
      simp only [methodNames]
      have h1' : stateNames (walkExpr (pushFrame st
          (if isMethodModifier fn args then modifierStaticLevel st args else 0))
          false recv).1 +
          methodNames (walkExpr (pushFrame st
            (if isMethodModifier fn args then modifierStaticLevel st args else 0))
            false recv).2 =
          stateNames st + methodNames recv := by
        rw [h1.2, pushFrame_stateNames]
      exact names_comp2 h1' h2.2
    | false =>
      rw [walkExpr_send_plain st skip recv fn args hmov]
      have h1 := walkExpr_names st false recv hne
      have h2 := walkArgs_names (walkExpr st false recv).1 (isMethodModifier fn args) args
        (h1.1.ne_nil hne)
      exact ⟨h1.1.trans h2.1, by
        simp only [methodNames]
        exact names_comp2 h1.2 h2.2⟩
  | .ClassDef k nm anc rhs =>
    rw [walkExpr_classDef_eq]
    have h1 := walkList_names st.pushScope anc (pushScope_ne st)
    have h2 := walkList_names (walkList st.pushScope anc).1 rhs
      (h1.1.ne_nil (pushScope_ne st))
    have hext : ScopesExtend st.pushScope (walkList (walkList st.pushScope anc).1 rhs).1 :=
      h1.1.trans h2.1
    rcases hsc : (walkList (walkList st.pushScope anc).1 rhs).1.methodScopes with
      _ | ⟨htop, t2⟩
    · exfalso
      exact (hext.ne_nil (pushScope_ne st)) hsc
    · have hext' := hext
      unfold ScopesExtend at hext'
      rw [hsc] at hext'
      have hps : st.pushScope.methodScopes = ⟨[], []⟩ :: st.methodScopes := rfl
      rw [hps] at hext'
      rcases hext' with _ | ⟨hr, hrest⟩
      obtain ⟨hrs, ext, hrm⟩ := hr
      have hcur : (walkList (walkList st.pushScope anc).1 rhs).1.cur = htop := by
        unfold FlattenState.cur
        rw [hsc]
        rfl
      have hs2 : stateNames (walkList (walkList st.pushScope anc).1 rhs).1 =
          itemsNames htop.methods +
            stateNames (⟨t2⟩ : FlattenState) := by
        unfold stateNames
        rw [hsc]
        simp
      constructor
      · show ScopesExtend st ⟨t2⟩
        unfold ScopesExtend
        exact hrest
      · rw [hcur]
        show stateNames (⟨t2⟩ : FlattenState) +
            methodNames (.ClassDef k nm (walkList st.pushScope anc).2
              (addMethodsToClassRHS htop.methods
                (walkList (walkList st.pushScope anc).1 rhs).2)) =
          stateNames st + methodNames (.ClassDef k nm anc rhs)
        simp only [methodNames, addMethodsToClassRHS_names]
        have h1' : stateNames (walkList st.pushScope anc).1 +
            methodNamesList (walkList st.pushScope anc).2 =
            stateNames st + methodNamesList anc := by
          rw [h1.2, pushScope_stateNames]
        have h2' := h2.2
        rw [hs2] at h2'
        calc stateNames (⟨t2⟩ : FlattenState) +
              (methodNames nm + methodNamesList (walkList st.pushScope anc).2 +
                (itemsNames htop.methods +
                  methodNamesList (walkList (walkList st.pushScope anc).1 rhs).2)) =
            methodNames nm + (methodNamesList (walkList st.pushScope anc).2 +
              (itemsNames htop.methods + stateNames (⟨t2⟩ : FlattenState) +
                methodNamesList (walkList (walkList st.pushScope anc).1 rhs).2)) := by
              simp [add_comm, add_left_comm, add_assoc]
          _ = methodNames nm + (methodNamesList (walkList st.pushScope anc).2 +
              (stateNames (walkList st.pushScope anc).1 + methodNamesList rhs)) := by
              rw [h2']
          _ = methodNames nm + (methodNamesList rhs +
              (stateNames (walkList st.pushScope anc).1 +
                methodNamesList (walkList st.pushScope anc).2)) := by
              simp [add_comm, add_left_comm, add_assoc]
          _ = methodNames nm + (methodNamesList rhs +
              (stateNames st + methodNamesList anc)) := by rw [h1']
          _ = stateNames st + (methodNames nm + methodNamesList anc +
              methodNamesList rhs) := by
              simp [add_comm, add_left_comm, add_assoc]

theorem walkArgs_names (st : FlattenState) (skipFirst : Bool) (args : List Expression)
    (hne : st.methodScopes ≠ []) :
    ScopesExtend st (walkArgs st skipFirst args).1 ∧
    stateNames (walkArgs st skipFirst args).1 +
        methodNamesList (walkArgs st skipFirst args).2 =
      stateNames st + methodNamesList args := by
  match args with
  | [] => exact ⟨ScopesExtend.refl st, rfl⟩
  | a :: rest =>
    have h1 := walkExpr_names st skipFirst a hne
    have h2 := walkList_names (walkExpr st skipFirst a).1 rest (h1.1.ne_nil hne)
    simp only [walkArgs]
    exact ⟨h1.1.trans h2.1, by
      simp only [methodNamesList]
      exact names_comp2 h1.2 h2.2⟩

theorem walkList_names (st : FlattenState) (es : List Expression)
    (hne : st.methodScopes ≠ []) :
    ScopesExtend st (walkList st es).1 ∧
    stateNames (walkList st es).1 + methodNamesList (walkList st es).2 =
      stateNames st + methodNamesList es := by
  match es with
  | [] => exact ⟨ScopesExtend.refl st, rfl⟩
  | e :: rest =>
    have h1 := walkExpr_names st false e hne
    have h2 := walkList_names (walkExpr st false e).1 rest (h1.1.ne_nil hne)
    simp only [walkList]
    exact ⟨h1.1.trans h2.1, by
      simp only [methodNamesList]
      exact names_comp2 h1.2 h2.2⟩

end

/-- Counterexample input for C8, the desugaring of
`class A; def foo; def bar; end; end; end`. -/
def c8Input : Expression :=
  .ClassDef .Class (.UnresolvedIdent .Class "A") []
    [.MethodDef "foo" false [] (.MethodDef "bar" false [] .EmptyTree)]

/-- C8 counterexample: flattening moves `bar` out of `foo`, so `foo`'s body
changes and the multiset of (name, body) pairs is not preserved. -/
theorem c8_counterexample :
    methodNameBodies (flattenRun c8Input) ≠ methodNameBodies c8Input := by
  decide

/-- C8 amended: for every input tree, flattening preserves the multiset of
`MethodDef` names — no method definition is dropped or duplicated (though
bodies change when nested definitions move out of them). -/
theorem c8_method_names_preserved (T : Expression) :
    methodNames (flattenRun T) = methodNames T := by
  unfold flattenRun
  have h := walkExpr_names ⟨[⟨[], []⟩]⟩ false T (by simp)
  rcases hsc : (walkExpr ⟨[⟨[], []⟩]⟩ false T).1.methodScopes with _ | ⟨m', t'⟩
  · exact absurd hsc (h.1.ne_nil (by simp))
  · have hext := h.1
    unfold ScopesExtend at hext
    rw [hsc] at hext
    rcases hext with _ | ⟨hr, hrest⟩
    cases hrest
    have hcur : (walkExpr ⟨[⟨[], []⟩]⟩ false T).1.cur = m' := by
      unfold FlattenState.cur
      rw [hsc]
      rfl
    show methodNames (addMethodsToTree (walkExpr ⟨[⟨[], []⟩]⟩ false T).1.cur.methods
      (walkExpr ⟨[⟨[], []⟩]⟩ false T).2) = methodNames T
    rw [hcur, addMethodsToTree_names]
    have hnames := h.2
    have hs : stateNames (walkExpr ⟨[⟨[], []⟩]⟩ false T).1 = itemsNames m'.methods := by
      unfold stateNames
      rw [hsc]
      simp
    have hs0 : stateNames ⟨[⟨[], []⟩]⟩ = 0 := by simp [stateNames, itemsNames]
    rw [hs, hs0] at hnames
    simpa using hnames

/-! ### Idempotence (C9)

A tree is `cleanTop` when walking it with an empty pending stack moves
nothing (every movable item already sits where a walk leaves it), and
`deep` when it contains no movable item at all outside nested class
bodies.  Flatten output is `cleanTop`; walking a `cleanTop` tree is the
identity. -/

mutual

/-- Safe under an empty pending stack: the walk changes nothing here. -/
def cleanTop : Expression → Bool
  | .ClassDef _ _ anc rhs => cleanTopList anc && cleanTopList rhs
  | .MethodDef _ _ args body => deepList args && deep body
  | .Send recv fn args =>
      if isMethodModifier fn args then deep recv && innerDeep args
      else if fn == Names.sig then deep recv && deepList args
      else cleanTop recv && cleanTopList args
  | .InsSeq stats result => cleanTopList stats && cleanTop result
  | _ => true

/-- The children of a claimed modifier send's sole `MethodDef` argument
contain no movable item. -/
def innerDeep : List Expression → Bool
  | [.MethodDef _ _ a b] => deepList a && deep b
  | _ => false

/-- No movable item at all outside nested class bodies: safe under a
non-empty pending stack. -/
def deep : Expression → Bool
  | .ClassDef _ _ anc rhs => cleanTopList anc && cleanTopList rhs
  | .MethodDef _ _ _ _ => false
  | .Send recv fn args =>
      if fn == Names.sig || isMethodModifier fn args then false
      else deep recv && deepList args
  | .InsSeq stats result => deepList stats && deep result
  | _ => true

/-- `cleanTop` for every element. -/
def cleanTopList : List Expression → Bool
  | [] => true
  | e :: rest => cleanTop e && cleanTopList rest

/-- `deep` for every element. -/
def deepList : List Expression → Bool
  | [] => true
  | e :: rest => deep e && deepList rest

end

theorem cleanTopList_append (a b : List Expression) :
    cleanTopList (a ++ b) = (cleanTopList a && cleanTopList b) := by
  induction a with
  | nil => simp [cleanTopList]
  | cons e rest ih => simp [cleanTopList, ih, Bool.and_assoc]

theorem cleanTopList_mem (l : List Expression) (h : ∀ e ∈ l, cleanTop e = true) :
    cleanTopList l = true := by
  induction l with
  | nil => rfl
  | cons e rest ih =>
    simp only [cleanTopList, Bool.and_eq_true]
    exact ⟨h e (List.mem_cons_self e rest), ih fun x hx => h x (List.mem_cons_of_mem e hx)⟩

theorem cleanTopList_of_mem {l : List Expression} (h : cleanTopList l = true) :
    ∀ e ∈ l, cleanTop e = true := by
  induction l with
  | nil => intro e he; cases he
  | cons x rest ih =>
    simp only [cleanTopList, Bool.and_eq_true] at h
    intro e he
    rcases List.mem_cons.mp he with rfl | he'
    · exact h.1
    · exact ih h.2 e he'

theorem cleanTop_setIsSelf (e : Expression) (b : Bool) :
    cleanTop (setIsSelfIfMethodDef e b) = cleanTop e := by
  cases e <;> simp [setIsSelfIfMethodDef, cleanTop]

/-- An item queue whose moved expressions are all `cleanTop`. -/
def CleanItems (l : List MovedItem) : Prop :=
  ∀ it ∈ l, cleanTop (it.expr.getD .EmptyTree) = true

theorem CleanItems.nil : CleanItems [] := fun _ h => absurd h (List.not_mem_nil _)

theorem CleanItems.append {a b : List MovedItem} (ha : CleanItems a) (hb : CleanItems b) :
    CleanItems (a ++ b) := by
  intro it hit
  rcases List.mem_append.mp hit with h | h
  · exact ha it h
  · exact hb it h

/-- The fixup pass changes only static levels, so item cleanliness is kept. -/
theorem fixup_cleanItems {items : List MovedItem} (h : CleanItems items) :
    CleanItems (fixupSigLevels items) := by
  intro it hit
  induction items using fixupSigLevels.induct generalizing it with
  | case1 => cases hit
  | case2 x =>
    rcases List.mem_singleton.mp hit with rfl
    exact h it (List.mem_singleton_self it)
  | case3 x y rest ih =>
    simp only [fixupSigLevels] at hit
    rcases List.mem_cons.mp hit with rfl | h'
    · have hx := h x (List.mem_cons_self x (y :: rest))
      split <;> simpa using hx
    · exact ih (fun q hq => h q (List.mem_cons_of_mem x hq)) it h'

/-- The class-body flush of clean items into a clean body is clean. -/
theorem addMethodsToClassRHS_clean (items : List MovedItem) (rhs : List Expression)
    (hitems : CleanItems items) (hrhs : cleanTopList rhs = true) :
    cleanTopList (addMethodsToClassRHS items rhs) = true := by
  unfold addMethodsToClassRHS
  split
  · rename_i it
    have hit := hitems it (List.mem_singleton_self it)
    simp [cleanTopList, hit]
  · have hmoved : ∀ p ∈ ((fixupSigLevels items).map fun it =>
        (setIsSelfIfMethodDef (it.expr.getD .EmptyTree) (decide (0 < it.staticLevel)),
          it.staticLevel)), cleanTop p.1 = true := by
      intro p hp
      obtain ⟨it', hit', rfl⟩ := List.mem_map.mp hp
      rw [cleanTop_setIsSelf]
      exact fixup_cleanItems hitems it' hit'
    rw [cleanTopList_append, cleanTopList_append, Bool.and_eq_true, Bool.and_eq_true]
    refine ⟨⟨hrhs, ?_⟩, ?_⟩
    · refine cleanTopList_mem _ fun e he => ?_
      obtain ⟨p, hp, rfl⟩ := List.mem_map.mp he
      exact hmoved p (List.mem_filter.mp hp).1
    · refine cleanTopList_mem _ fun e he => ?_
      obtain ⟨lvl, _, rfl⟩ := List.mem_map.mp he
      simp only [cleanTop, Bool.and_eq_true]
      refine ⟨rfl, cleanTopList_mem _ fun x hx => ?_⟩
      obtain ⟨p, hp, rfl⟩ := List.mem_map.mp hx
      exact hmoved p (List.mem_filter.mp hp).1

/-- The program-root flush of clean items into a clean tree is clean. -/
theorem addMethodsToTree_clean (items : List MovedItem) (tree : Expression)
    (hitems : CleanItems items) (htree : cleanTop tree = true) :
    cleanTop (addMethodsToTree items tree) = true := by
  unfold addMethodsToTree
  split
  · exact htree
  · split
    · rename_i it _
      exact hitems it (List.mem_singleton_self it)
    · rename_i stats result
      simp only [cleanTop, Bool.and_eq_true] at htree ⊢
      refine ⟨?_, htree.2⟩
      rw [cleanTopList_append, Bool.and_eq_true]
      refine ⟨htree.1, cleanTopList_mem _ fun e he => ?_⟩
      obtain ⟨it, hit, rfl⟩ := List.mem_map.mp he
      exact hitems it hit
    · rename_i t _
      simp only [cleanTop, Bool.and_eq_true]
      refine ⟨cleanTopList_mem _ fun e he => ?_, htree⟩
      obtain ⟨it, hit, rfl⟩ := List.mem_map.mp he
      exact hitems it hit

/-- Flushing an empty queue into a class body is the identity. -/
theorem addMethodsToClassRHS_nil (rhs : List Expression) :
    addMethodsToClassRHS [] rhs = rhs := by
  unfold addMethodsToClassRHS
  split
  · rename_i heq
    cases heq
  · simp [fixupSigLevels, highestLevel]

/-- Flushing an empty queue into the root tree is the identity. -/
theorem addMethodsToTree_nil (tree : Expression) :
    addMethodsToTree [] tree = tree := by
  simp [addMethodsToTree]

/-- Scope-stack extension in which every appended queue item is a clean
moved expression. -/
def CleanExtend (a b : FlattenState) : Prop :=
  List.Forall₂ (fun m m' => m'.stack = m.stack ∧
      ∃ ext, m'.methods = m.methods ++ ext ∧ CleanItems ext)
    a.methodScopes b.methodScopes

theorem CleanItems.cons {it : MovedItem} {rest : List MovedItem}
    (h1 : cleanTop (it.expr.getD .EmptyTree) = true) (h2 : CleanItems rest) :
    CleanItems (it :: rest) := by
  intro x hx
  rcases List.mem_cons.mp hx with rfl | hx'
  · exact h1
  · exact h2 x hx'

theorem CleanExtend.crefl (a : FlattenState) : CleanExtend a a := by
  have aux : ∀ l : List Methods,
      List.Forall₂ (fun m m' => m'.stack = m.stack ∧
          ∃ ext, m'.methods = m.methods ++ ext ∧ CleanItems ext) l l := by
    intro l
    induction l with
    | nil => exact List.Forall₂.nil
    | cons m rest ih => exact List.Forall₂.cons ⟨rfl, [], by simp, CleanItems.nil⟩ ih
  exact aux a.methodScopes

theorem CleanExtend.ctrans {a b c : FlattenState} (h1 : CleanExtend a b)
    (h2 : CleanExtend b c) : CleanExtend a c := by
  have aux : ∀ (x y z : List Methods),
      List.Forall₂ (fun m m' => m'.stack = m.stack ∧
          ∃ ext, m'.methods = m.methods ++ ext ∧ CleanItems ext) x y →
      List.Forall₂ (fun m m' => m'.stack = m.stack ∧
          ∃ ext, m'.methods = m.methods ++ ext ∧ CleanItems ext) y z →
      List.Forall₂ (fun m m' => m'.stack = m.stack ∧
          ∃ ext, m'.methods = m.methods ++ ext ∧ CleanItems ext) x z := by
    intro x y z hxy
    induction hxy generalizing z with
    | nil =>
      intro hz
      cases hz
      exact List.Forall₂.nil
    | cons hr hrest ih =>
      intro hz
      rcases hz with _ | ⟨hr2, hrest2⟩
      refine List.Forall₂.cons ⟨hr2.1.trans hr.1, ?_⟩ (ih _ hrest2)
      obtain ⟨e1, he1, hc1⟩ := hr.2
      obtain ⟨e2, he2, hc2⟩ := hr2.2
      exact ⟨e1 ++ e2, by simp [he2, he1], hc1.append hc2⟩
  exact aux _ _ _ h1 h2

theorem CleanExtend.clength_eq {a b : FlattenState} (h : CleanExtend a b) :
    a.methodScopes.length = b.methodScopes.length :=
  List.Forall₂.length_eq h

theorem CleanExtend.cne_nil {a b : FlattenState} (h : CleanExtend a b)
    (ha : a.methodScopes ≠ []) : b.methodScopes ≠ [] := by
  intro hb
  apply ha
  have := h.clength_eq
  rw [hb] at this
  simpa using List.length_eq_zero.mp this

/-- A clean extension only extends: it is in particular a shape extension. -/
theorem CleanExtend.toScopesExtend {a b : FlattenState} (h : CleanExtend a b) :
    ScopesExtend a b := by
  unfold CleanExtend at h
  unfold ScopesExtend
  exact List.Forall₂.imp
    (fun a b hm => ⟨hm.1, hm.2.elim fun e he => ⟨e, he.1⟩⟩) h

/-- Head inversion of a clean extension: the current stack is preserved and
the current queue grew by clean items only. -/
theorem CleanExtend.head {a b : FlattenState} (h : CleanExtend a b)
    (ha : a.methodScopes ≠ []) :
    b.cur.stack = a.cur.stack ∧
      ∃ ext, b.cur.methods = a.cur.methods ++ ext ∧ CleanItems ext := by
  unfold CleanExtend at h
  rcases hsa : a.methodScopes with _ | ⟨m, t⟩
  · exact absurd hsa ha
  rw [hsa] at h
  rcases hsb : b.methodScopes with _ | ⟨m', t'⟩
  · rw [hsb] at h
    cases h
  rw [hsb] at h
  rcases h with _ | ⟨hr, _⟩
  have hca : a.cur = m := by unfold FlattenState.cur; rw [hsa]; rfl
  have hcb : b.cur = m' := by unfold FlattenState.cur; rw [hsb]; rfl
  rw [hca, hcb]
  exact hr

/-- Popping the scope pushed before a cleanly extending walk: the popped
queue holds only clean items and the remaining state cleanly extends the
original. -/
theorem popScope_after_clean (st mid : FlattenState)
    (hext : CleanExtend st.pushScope mid) :
    CleanItems mid.cur.methods ∧ CleanExtend st ⟨mid.methodScopes.tail⟩ := by
  unfold CleanExtend at hext
  have hps : st.pushScope.methodScopes = ⟨[], []⟩ :: st.methodScopes := rfl
  rw [hps] at hext
  rcases hsb : mid.methodScopes with _ | ⟨m', t'⟩
  · rw [hsb] at hext
    cases hext
  rw [hsb] at hext
  rcases hext with _ | ⟨hr, hrest⟩
  obtain ⟨_, ext, hm, hc⟩ := hr
  have hcb : mid.cur = m' := by unfold FlattenState.cur; rw [hsb]; rfl
  refine ⟨?_, ?_⟩
  · rw [hcb, hm]
    simpa using hc
  · show CleanExtend st ⟨(m' :: t').tail⟩
    unfold CleanExtend
    exact hrest

/-- Visiting a send's arguments without a skipped first argument is the
plain child visit. -/
theorem walkArgs_false (st : FlattenState) (args : List Expression) :
    walkArgs st false args = walkList st args := by
  cases args <;> simp [walkArgs, walkList]

/-- A modifier send's argument list is exactly one `MethodDef`. -/
theorem isMethodModifier_shape {fn : String} {args : List Expression}
    (h : isMethodModifier fn args = true) :
    ∃ mn ms margs mbody, args = [.MethodDef mn ms margs mbody] := by
  unfold isMethodModifier at h
  rw [Bool.and_eq_true] at h
  obtain ⟨hname, hmatch⟩ := h
  match args, hmatch with
  | [a], hmatch =>
    match a, hmatch with
    | .MethodDef mn ms margs mbody, _ => exact ⟨mn, ms, margs, mbody, rfl⟩

/-- At class-body top level the pushed frame records slot `-1`, so the
post-visit move pops it and leaves both state and node unchanged. -/
theorem moveNode_pushFrame_id (st : FlattenState) (hne : st.methodScopes ≠ [])
    (hstk : st.cur.stack = []) (lvl : Nat) (node : Expression) :
    moveNode (pushFrame st lvl) node = (st, node) := by
  obtain ⟨scopes⟩ := st
  rcases scopes with _ | ⟨c0, t0⟩
  · exact absurd rfl hne
  have hstk' : c0.stack = [] := by
    simpa [FlattenState.cur] using hstk
  have hpf : pushFrame ⟨c0 :: t0⟩ lvl = ⟨⟨c0.methods, [⟨none, lvl⟩]⟩ :: t0⟩ := by
    simp [pushFrame, FlattenState.cur, hstk', FlattenState.setCur]
  rw [hpf]
  simp only [moveNode, FlattenState.cur, List.headD_cons, FlattenState.setCur,
    List.tail_cons]
  rw [← hstk']

/-- Clean version of the pre-push / walk-children / post-move pattern: with
a clean node and clean child walks, the pop restores a clean extension of
the original state, and the node stays in place exactly at class-body top
level (empty pending stack). -/
theorem moveNode_after_clean (st : FlattenState) (hne : st.methodScopes ≠ []) (lvl : Nat)
    (mid : FlattenState) (hext : CleanExtend (pushFrame st lvl) mid) (node : Expression)
    (hnode : cleanTop node = true) :
    CleanExtend st (moveNode mid node).1 ∧
      (st.cur.stack = [] → (moveNode mid node).2 = node) ∧
      (st.cur.stack ≠ [] → (moveNode mid node).2 = .EmptyTree) := by
  obtain ⟨scopes⟩ := st
  rcases scopes with _ | ⟨c0, t0⟩
  · exact absurd rfl hne
  have hcur0 : FlattenState.cur ⟨c0 :: t0⟩ = c0 := rfl
  rcases hstk : c0.stack with _ | ⟨f, fs⟩
  · have hpf : pushFrame ⟨c0 :: t0⟩ lvl = ⟨⟨c0.methods, [⟨none, lvl⟩]⟩ :: t0⟩ := by
      simp [pushFrame, FlattenState.cur, hstk, FlattenState.setCur]
    rw [hpf] at hext
    unfold CleanExtend at hext ⊢
    obtain ⟨ms⟩ := mid
    rcases ms with _ | ⟨m2, t2⟩
    · cases hext
    rcases hext with _ | ⟨hr, hrest⟩
    obtain ⟨hr1, ext, hr2, hr3⟩ := hr
    have hmv : moveNode ⟨m2 :: t2⟩ node =
        (⟨⟨m2.methods, []⟩ :: t2⟩, node) := by
      simp only [moveNode, FlattenState.cur, List.headD_cons]
      rw [hr1]
      rfl
    rw [hmv]
    refine ⟨List.Forall₂.cons ⟨hstk.symm ▸ rfl, ext, hr2, hr3⟩ hrest, ?_, ?_⟩
    · intro _; rfl
    · intro hco
      rw [hcur0] at hco
      exact absurd hstk hco
  · have hpf : pushFrame ⟨c0 :: t0⟩ lvl =
        ⟨⟨c0.methods ++ [default], ⟨some c0.methods.length, lvl⟩ :: c0.stack⟩ :: t0⟩ := by
      simp [pushFrame, FlattenState.cur, hstk, FlattenState.setCur]
    rw [hpf] at hext
    unfold CleanExtend at hext ⊢
    obtain ⟨ms⟩ := mid
    rcases ms with _ | ⟨m2, t2⟩
    · cases hext
    rcases hext with _ | ⟨hr, hrest⟩
    obtain ⟨hr1, ext, hr2, hr3⟩ := hr
    rw [List.append_assoc, List.singleton_append] at hr2
    have hmv : moveNode ⟨m2 :: t2⟩ node =
        (⟨⟨c0.methods ++ ⟨some node, lvl⟩ :: ext, c0.stack⟩ :: t2⟩, .EmptyTree) := by
      simp only [moveNode, FlattenState.cur, List.headD_cons]
      rw [hr1]
      simp only [FlattenState.setCur, List.tail_cons]
      rw [hr2, set_append_length]
    rw [hmv]
    have hcleanext : CleanItems ((⟨some node, lvl⟩ : MovedItem) :: ext) := by
      refine CleanItems.cons ?_ hr3
      simpa using hnode
    refine ⟨List.Forall₂.cons ⟨rfl, ⟨some node, lvl⟩ :: ext, rfl, hcleanext⟩ hrest, ?_, ?_⟩
    · intro hco
      rw [hcur0, hstk] at hco
      cases hco
    · intro _; rfl

/-- A pushed frame makes the current pending stack non-empty. -/
theorem pushFrame_stack_ne (st : FlattenState) (lvl : Nat) :
    (pushFrame st lvl).cur.stack ≠ [] := by
  unfold pushFrame
  rcases hstk : st.cur.stack with _ | ⟨f, fs⟩ <;> simp only [hstk] <;>
    simp [FlattenState.setCur, FlattenState.cur]

/-- The method-modifier check only depends on the sends' names being
modifier names once the sole argument is a `MethodDef`. -/
theorem isMethodModifier_of_name {fn : String} (mn : String) (ms : Bool)
    (margs : List Expression) (mbody : Expression)
    (hname : (fn == Names.private_ || fn == Names.protected_ || fn == Names.public_ ||
      fn == Names.privateClassMethod) = true) :
    isMethodModifier fn [.MethodDef mn ms margs mbody] = true := by
  simp [isMethodModifier, hname, isMethodDefTree]

/-- A send whose name is not a modifier name is never a modifier send. -/
theorem isMethodModifier_of_not_name {fn : String} (args : List Expression)
    (hname : (fn == Names.private_ || fn == Names.protected_ || fn == Names.public_ ||
      fn == Names.privateClassMethod) = false) :
    isMethodModifier fn args = false := by
  simp [isMethodModifier, hname]

mutual

/-- A tree with no movable items outside nested class bodies walks to
itself from any state. -/
theorem deep_walk_id (st : FlattenState) (skip : Bool) (e : Expression)
    (hd : deep e = true) : walkExpr st skip e = (st, e) := by
  match e with
  | .EmptyTree => rfl
  | .Literal v => rfl
  | .Local n => rfl
  | .UnresolvedIdent k n => rfl
  | .MethodDef n s args body => simp [deep] at hd
  | .ClassDef k nm anc rhs =>
    obtain ⟨hca, hcr⟩ : cleanTopList anc = true ∧ cleanTopList rhs = true := by
      simpa [deep] using hd
    have h1 := cleanTopList_walkList_id st.pushScope anc (pushScope_ne st) rfl hca
    have h2 := cleanTopList_walkList_id st.pushScope rhs (pushScope_ne st) rfl hcr
    rw [walkExpr_classDef_eq]
    simp only [h1, h2]
    simp [FlattenState.pushScope, FlattenState.cur, addMethodsToClassRHS_nil]
  | .Send recv fn args =>
    cases hmov : (fn == Names.sig || isMethodModifier fn args) with
    | true => simp [deep, hmov] at hd
    | false =>
      obtain ⟨hdr, hda⟩ : deep recv = true ∧ deepList args = true := by
        simpa [deep, hmov] using hd
      rw [walkExpr_send_plain st skip recv fn args hmov]
      have h1 := deep_walk_id st false recv hdr
      have h2 := deepList_walkArgs_id st (isMethodModifier fn args) args hda
      simp only [h1, h2]
  | .InsSeq stats result =>
    obtain ⟨hds, hdr⟩ : deepList stats = true ∧ deep result = true := by
      simpa [deep] using hd
    have h1 := deepList_walkList_id st stats hds
    have h2 := deep_walk_id st false result hdr
    simp only [walkExpr, h1, h2]
termination_by sizeOf e

/-- A clean tree walks to itself from any state whose current pending
stack is empty. -/
theorem cleanTop_walk_id (st : FlattenState) (e : Expression)
    (hne : st.methodScopes ≠ []) (hstk : st.cur.stack = [])
    (hc : cleanTop e = true) : walkExpr st false e = (st, e) := by
  match e with
  | .EmptyTree => rfl
  | .Literal v => rfl
  | .Local n => rfl
  | .UnresolvedIdent k n => rfl
  | .ClassDef k nm anc rhs =>
    obtain ⟨hca, hcr⟩ : cleanTopList anc = true ∧ cleanTopList rhs = true := by
      simpa [cleanTop] using hc
    have h1 := cleanTopList_walkList_id st.pushScope anc (pushScope_ne st) rfl hca
    have h2 := cleanTopList_walkList_id st.pushScope rhs (pushScope_ne st) rfl hcr
    rw [walkExpr_classDef_eq]
    simp only [h1, h2]
    simp [FlattenState.pushScope, FlattenState.cur, addMethodsToClassRHS_nil]
  | .MethodDef n s args body =>
    obtain ⟨hda, hdb⟩ : deepList args = true ∧ deep body = true := by
      simpa [cleanTop] using hc
    rw [walkExpr_methodDef_move]
    have h1 := deepList_walkList_id (pushFrame st (computeStaticLevel st s)) args hda
    have h2 := deep_walk_id (pushFrame st (computeStaticLevel st s)) false body hdb
    simp only [h1, h2]
    exact moveNode_pushFrame_id st hne hstk _ _
  | .Send recv fn args =>
    cases hmov : (fn == Names.sig || isMethodModifier fn args) with
    | true =>
      cases hmod : isMethodModifier fn args with
      | true =>
        obtain ⟨mn, ms, margs, mbody, rfl⟩ := isMethodModifier_shape hmod
        obtain ⟨hdr, hinner⟩ : deep recv = true ∧
            innerDeep [.MethodDef mn ms margs mbody] = true := by
          simpa [cleanTop, hmod] using hc
        obtain ⟨hma, hmb⟩ : deepList margs = true ∧ deep mbody = true := by
          simpa [innerDeep] using hinner
        rw [walkExpr_send_movable st false recv fn _ hmov]
        rw [hmod]
        simp only [if_true]
        have h1 := deep_walk_id
          (pushFrame st (modifierStaticLevel st [.MethodDef mn ms margs mbody]))
          false recv hdr
        have ha := deepList_walkList_id
          (pushFrame st (modifierStaticLevel st [.MethodDef mn ms margs mbody])) margs hma
        have hb := deep_walk_id
          (pushFrame st (modifierStaticLevel st [.MethodDef mn ms margs mbody]))
          false mbody hmb
        simp only [h1, walkArgs, walkExpr_methodDef_skip, ha, hb, walkList]
        exact moveNode_pushFrame_id st hne hstk _ _
      | false =>
        have hsig : (fn == Names.sig) = true := by
          cases hs : (fn == Names.sig) with
          | true => rfl
          | false => rw [hs, hmod] at hmov; cases hmov
        obtain ⟨hdr, hda⟩ : deep recv = true ∧ deepList args = true := by
          simpa [cleanTop, hmod, hsig] using hc
        rw [walkExpr_send_movable st false recv fn args hmov]
        rw [hmod]
        simp only [Bool.false_eq_true, if_false]
        have h1 := deep_walk_id (pushFrame st 0) false recv hdr
        have h2 := deepList_walkArgs_id (pushFrame st 0) false args hda
        simp only [h1, h2]
        exact moveNode_pushFrame_id st hne hstk _ _
    | false =>
      rw [Bool.or_eq_false_iff] at hmov
      obtain ⟨hsig, hmod⟩ := hmov
      obtain ⟨hcr, hca⟩ : cleanTop recv = true ∧ cleanTopList args = true := by
        simpa [cleanTop, hmod, hsig] using hc
      rw [walkExpr_send_plain st false recv fn args (by rw [hsig, hmod]; rfl)]
      have h1 := cleanTop_walk_id st recv hne hstk hcr
      have h2 : walkArgs st (isMethodModifier fn args) args = (st, args) := by
        rw [hmod, walkArgs_false]
        exact cleanTopList_walkList_id st args hne hstk hca
      simp only [h1, h2]
  | .InsSeq stats result =>
    obtain ⟨hcs, hcr⟩ : cleanTopList stats = true ∧ cleanTop result = true := by
      simpa [cleanTop] using hc
    have h1 := cleanTopList_walkList_id st stats hne hstk hcs
    have h2 := cleanTop_walk_id st result hne hstk hcr
    simp only [walkExpr, h1, h2]
termination_by sizeOf e

/-- Lists of trees with no movable items walk to themselves. -/
theorem deepList_walkList_id (st : FlattenState) (es : List Expression)
    (hd : deepList es = true) : walkList st es = (st, es) := by
  match es with
  | [] => rfl
  | e :: rest =>
    obtain ⟨h1, h2⟩ : deep e = true ∧ deepList rest = true := by
      simpa [deepList] using hd
    have he := deep_walk_id st false e h1
    have hr := deepList_walkList_id st rest h2
    simp only [walkList, he, hr]
termination_by sizeOf es

/-- Argument lists of trees with no movable items walk to themselves. -/
theorem deepList_walkArgs_id (st : FlattenState) (skipFirst : Bool)
    (es : List Expression) (hd : deepList es = true) :
    walkArgs st skipFirst es = (st, es) := by
  match es with
  | [] => rfl
  | e :: rest =>
    obtain ⟨h1, h2⟩ : deep e = true ∧ deepList rest = true := by
      simpa [deepList] using hd
    have he := deep_walk_id st skipFirst e h1
    have hr := deepList_walkList_id st rest h2
    simp only [walkArgs, he, hr]
termination_by sizeOf es

/-- Lists of clean trees walk to themselves under an empty pending stack. -/
theorem cleanTopList_walkList_id (st : FlattenState) (es : List Expression)
    (hne : st.methodScopes ≠ []) (hstk : st.cur.stack = [])
    (hc : cleanTopList es = true) : walkList st es = (st, es) := by
  match es with
  | [] => rfl
  | e :: rest =>
    obtain ⟨h1, h2⟩ : cleanTop e = true ∧ cleanTopList rest = true := by
      simpa [cleanTopList] using hc
    have he := cleanTop_walk_id st e hne hstk h1
    have hr := cleanTopList_walkList_id st rest hne hstk h2
    simp only [walkList, he, hr]
termination_by sizeOf es

end

mutual

/-- The walk's output is clean: the state extends cleanly, at class-body
top level (empty pending stack) the output tree is clean, and under a
pending frame the output contains no movable item outside nested class
bodies. -/
theorem walkExpr_clean (st : FlattenState) (e : Expression)
    (hne : st.methodScopes ≠ []) :
    CleanExtend st (walkExpr st false e).1 ∧
      (st.cur.stack = [] → cleanTop (walkExpr st false e).2 = true) ∧
      (st.cur.stack ≠ [] → deep (walkExpr st false e).2 = true) := by
  match e with
  | .EmptyTree =>
    exact ⟨CleanExtend.crefl st, fun _ => by simp [cleanTop], fun _ => by simp [deep]⟩
  | .Literal v =>
    exact ⟨CleanExtend.crefl st, fun _ => by simp [cleanTop], fun _ => by simp [deep]⟩
  | .Local n =>
    exact ⟨CleanExtend.crefl st, fun _ => by simp [cleanTop], fun _ => by simp [deep]⟩
  | .UnresolvedIdent k n =>
    exact ⟨CleanExtend.crefl st, fun _ => by simp [cleanTop], fun _ => by simp [deep]⟩
  | .InsSeq stats result =>
    have h1 := walkList_clean st stats hne
    have hne1 := h1.1.cne_nil hne
    have hstk1 : (walkList st stats).1.cur.stack = st.cur.stack := (h1.1.head hne).1
    have h2 := walkExpr_clean (walkList st stats).1 result hne1
    simp only [walkExpr]
    refine ⟨h1.1.ctrans h2.1, ?_, ?_⟩
    · intro hstk
      have hs := h1.2.1 hstk
      have hr := h2.2.1 (by rw [hstk1, hstk])
      simp [cleanTop, hs, hr]
    · intro hstk
      have hs := h1.2.2 hstk
      have hr := h2.2.2 (by rw [hstk1]; exact hstk)
      simp [deep, hs, hr]
  | .ClassDef k nm anc rhs =>
    have h1 := walkList_clean st.pushScope anc (pushScope_ne st)
    have hne1 := h1.1.cne_nil (pushScope_ne st)
    have hstk1 : (walkList st.pushScope anc).1.cur.stack = [] :=
      (h1.1.head (pushScope_ne st)).1
    have h2 := walkList_clean (walkList st.pushScope anc).1 rhs hne1
    have hanc := h1.2.1 rfl
    have hrhs := h2.2.1 hstk1
    have hext : CleanExtend st.pushScope
        (walkList (walkList st.pushScope anc).1 rhs).1 := h1.1.ctrans h2.1
    have hpop := popScope_after_clean st _ hext
    have hflush := addMethodsToClassRHS_clean _ _ hpop.1 hrhs
    rw [walkExpr_classDef_eq]
    refine ⟨hpop.2, ?_, ?_⟩
    · intro _
      simp [cleanTop, hanc, hflush]
    · intro _
      simp [deep, hanc, hflush]
  | .MethodDef n s args body =>
    rw [walkExpr_methodDef_move]
    have hne1 := pushFrame_ne st (computeStaticLevel st s)
    have h1 := walkList_clean (pushFrame st (computeStaticLevel st s)) args hne1
    have hne2 := h1.1.cne_nil hne1
    have hstk1 : (walkList (pushFrame st (computeStaticLevel st s)) args).1.cur.stack =
        (pushFrame st (computeStaticLevel st s)).cur.stack := (h1.1.head hne1).1
    have h2 := walkExpr_clean (walkList (pushFrame st (computeStaticLevel st s)) args).1
      body hne2
    have hargs := h1.2.2 (pushFrame_stack_ne st (computeStaticLevel st s))
    have hbody := h2.2.2 (by rw [hstk1]; exact pushFrame_stack_ne st _)
    have hnode : cleanTop (.MethodDef n s
        (walkList (pushFrame st (computeStaticLevel st s)) args).2
        (walkExpr (walkList (pushFrame st (computeStaticLevel st s)) args).1
          false body).2) = true := by
      simp [cleanTop, hargs, hbody]
    have hmv := moveNode_after_clean st hne (computeStaticLevel st s) _
      (h1.1.ctrans h2.1) _ hnode
    refine ⟨hmv.1, ?_, ?_⟩
    · intro hstk
      rw [hmv.2.1 hstk]
      exact hnode
    · intro hstk
      rw [hmv.2.2 hstk]
      simp [deep]
  | .Send recv fn args =>
    cases hmov : (fn == Names.sig || isMethodModifier fn args) with
    | true =>
      cases hmod : isMethodModifier fn args with
      | true =>
        obtain ⟨mn, ms, margs, mbody, rfl⟩ := isMethodModifier_shape hmod
        have hname : (fn == Names.private_ || fn == Names.protected_ ||
            fn == Names.public_ || fn == Names.privateClassMethod) = true := by
          have h := hmod
          unfold isMethodModifier at h
          rw [Bool.and_eq_true] at h
          exact h.1
        rw [walkExpr_send_movable st false recv fn _ hmov, hmod]
        simp only [if_true, walkArgs, walkExpr_methodDef_skip, walkList]
        have hnepf := pushFrame_ne st
          (modifierStaticLevel st [.MethodDef mn ms margs mbody])
        have hstkpf := pushFrame_stack_ne st
          (modifierStaticLevel st [.MethodDef mn ms margs mbody])
        have h1 := walkExpr_clean (pushFrame st
          (modifierStaticLevel st [.MethodDef mn ms margs mbody])) recv hnepf
        have hne1 := h1.1.cne_nil hnepf
        have hstk1 := (h1.1.head hnepf).1
        have ha := walkList_clean (walkExpr (pushFrame st
          (modifierStaticLevel st [.MethodDef mn ms margs mbody])) false recv).1
          margs hne1
        have hne2 := ha.1.cne_nil hne1
        have hstk2 := (ha.1.head hne1).1
        have hb := walkExpr_clean (walkList (walkExpr (pushFrame st
          (modifierStaticLevel st [.MethodDef mn ms margs mbody])) false recv).1
          margs).1 mbody hne2
        have hrecv := h1.2.2 hstkpf
        have hmargs := ha.2.2 (by rw [hstk1]; exact hstkpf)
        have hmbody := hb.2.2 (by rw [hstk2, hstk1]; exact hstkpf)
        have hnode : cleanTop (.Send (walkExpr (pushFrame st
            (modifierStaticLevel st [.MethodDef mn ms margs mbody])) false recv).2 fn
            [.MethodDef mn ms
              (walkList (walkExpr (pushFrame st
                (modifierStaticLevel st [.MethodDef mn ms margs mbody])) false recv).1
                margs).2
              (walkExpr (walkList (walkExpr (pushFrame st
                (modifierStaticLevel st [.MethodDef mn ms margs mbody])) false recv).1
                margs).1 false mbody).2]) = true := by
          rw [cleanTop]
          rw [isMethodModifier_of_name _ _ _ _ hname]
          simp [innerDeep, hrecv, hmargs, hmbody]
        have hmv := moveNode_after_clean st hne
          (modifierStaticLevel st [.MethodDef mn ms margs mbody]) _
          (h1.1.ctrans (ha.1.ctrans hb.1)) _ hnode
        refine ⟨hmv.1, ?_, ?_⟩
        · intro hstk
          rw [hmv.2.1 hstk]
          exact hnode
        · intro hstk
          rw [hmv.2.2 hstk]
          simp [deep]
      | false =>
        have hsig : (fn == Names.sig) = true := by
          cases hs : (fn == Names.sig) with
          | true => rfl
          | false => rw [hs, hmod] at hmov; cases hmov
        have hfn : fn = Names.sig := by simpa using hsig
        have hname : (fn == Names.private_ || fn == Names.protected_ ||
            fn == Names.public_ || fn == Names.privateClassMethod) = false := by
          subst hfn
          decide
        rw [walkExpr_send_movable st false recv fn args hmov, hmod]
        simp only [Bool.false_eq_true, if_false, walkArgs_false]
        have hnepf := pushFrame_ne st 0
        have hstkpf := pushFrame_stack_ne st 0
        have h1 := walkExpr_clean (pushFrame st 0) recv hnepf
        have hne1 := h1.1.cne_nil hnepf
        have hstk1 := (h1.1.head hnepf).1
        have h2 := walkList_clean (walkExpr (pushFrame st 0) false recv).1 args hne1
        have hrecv := h1.2.2 hstkpf
        have hargs := h2.2.2 (by rw [hstk1]; exact hstkpf)
        have hnode : cleanTop (.Send (walkExpr (pushFrame st 0) false recv).2 fn
            (walkList (walkExpr (pushFrame st 0) false recv).1 args).2) = true := by
          rw [cleanTop]
          rw [isMethodModifier_of_not_name _ hname]
          simp [hsig, hrecv, hargs]
        have hmv := moveNode_after_clean st hne 0 _
          (h1.1.ctrans h2.1) _ hnode
        refine ⟨hmv.1, ?_, ?_⟩
        · intro hstk
          rw [hmv.2.1 hstk]
          exact hnode
        · intro hstk
          rw [hmv.2.2 hstk]
          simp [deep]
    | false =>
      rw [walkExpr_send_plain st false recv fn args hmov]
      rw [Bool.or_eq_false_iff] at hmov
      obtain ⟨hsig, hmod⟩ := hmov
      rw [hmod, walkArgs_false]
      have h1 := walkExpr_clean st recv hne
      have hne1 := h1.1.cne_nil hne
      have hstk1 := (h1.1.head hne).1
      have h2 := walkList_clean (walkExpr st false recv).1 args hne1
      have hmodout : isMethodModifier fn
          (walkList (walkExpr st false recv).1 args).2 = false := by
        have h := walkArgs_modifier (walkExpr st false recv).1 fn args
        rw [hmod, walkArgs_false] at h
        rw [h]
      refine ⟨h1.1.ctrans h2.1, ?_, ?_⟩
      · intro hstk
        have hr := h1.2.1 hstk
        have ha := h2.2.1 (by rw [hstk1, hstk])
        rw [cleanTop, hmodout]
        simp [hsig, hr, ha]
      · intro hstk
        have hr := h1.2.2 hstk
        have ha := h2.2.2 (by rw [hstk1]; exact hstk)
        rw [deep, hsig, hmodout]
        simp [hr, ha]
termination_by sizeOf e

/-- The cleanliness of the walk's output, for child lists. -/
theorem walkList_clean (st : FlattenState) (es : List Expression)
    (hne : st.methodScopes ≠ []) :
    CleanExtend st (walkList st es).1 ∧
      (st.cur.stack = [] → cleanTopList (walkList st es).2 = true) ∧
      (st.cur.stack ≠ [] → deepList (walkList st es).2 = true) := by
  match es with
  | [] =>
    exact ⟨CleanExtend.crefl st, fun _ => by simp [cleanTopList],
      fun _ => by simp [deepList]⟩
  | e :: rest =>
    have h1 := walkExpr_clean st e hne
    have hne1 := h1.1.cne_nil hne
    have hstk1 : (walkExpr st false e).1.cur.stack = st.cur.stack := (h1.1.head hne).1
    have h2 := walkList_clean (walkExpr st false e).1 rest hne1
    simp only [walkList]
    refine ⟨h1.1.ctrans h2.1, ?_, ?_⟩
    · intro hstk
      have he := h1.2.1 hstk
      have hr := h2.2.1 (by rw [hstk1, hstk])
      simp [cleanTopList, he, hr]
    · intro hstk
      have he := h1.2.2 hstk
      have hr := h2.2.2 (by rw [hstk1]; exact hstk)
      simp [deepList, he, hr]
termination_by sizeOf es

end

/-- The flattener's output tree is clean: every movable item already sits
where a walk with an empty pending stack leaves it. -/
theorem flattenRun_clean (T : Expression) : cleanTop (flattenRun T) = true := by
  have hne : (⟨[⟨[], []⟩]⟩ : FlattenState).methodScopes ≠ [] := List.cons_ne_nil _ _
  have h := walkExpr_clean ⟨[⟨[], []⟩]⟩ T hne
  have hct := h.2.1 rfl
  obtain ⟨ext, hm, hc⟩ := (h.1.head hne).2
  have hitems : CleanItems (walkExpr ⟨[⟨[], []⟩]⟩ false T).1.cur.methods := by
    have h0 : (⟨[⟨[], []⟩]⟩ : FlattenState).cur.methods = ([] : List MovedItem) := rfl
    rw [hm, h0]
    simp only [List.nil_append]
    exact hc
  exact addMethodsToTree_clean _ _ hitems hct

/-- C9.  Flattening is idempotent: running the flattener on an already
flattened tree returns it unchanged, for every input tree. -/
theorem c9_flatten_idempotent (T : Expression) :
    flattenRun (flattenRun T) = flattenRun T := by
  have hne : (⟨[⟨[], []⟩]⟩ : FlattenState).methodScopes ≠ [] := List.cons_ne_nil _ _
  have hid := cleanTop_walk_id ⟨[⟨[], []⟩]⟩ (flattenRun T) hne rfl (flattenRun_clean T)
  show addMethodsToTree (walkExpr ⟨[⟨[], []⟩]⟩ false (flattenRun T)).1.cur.methods
      (walkExpr ⟨[⟨[], []⟩]⟩ false (flattenRun T)).2 = flattenRun T
  rw [hid]
  exact addMethodsToTree_nil _

end Sorbet
